import Mathlib

/-!
Verification of the OpenAPI spec server (`spec_server.py`).

The development shallowly embeds the Python source: strings are `List Char`
(ASCII model of Python `str`), Python's string methods (`replace`, `split`,
`strip`, `lower`, `title`) are translated as executable functions on
`List Char`, dictionaries that the code iterates over are association lists
in insertion order, and each HTTP handler is a pure function from an
explicit model of the registry/filesystem state to a response value.
-/

/-- Strings of the embedded program: Python `str` modelled as a list of
characters (ASCII fragment). -/
abbrev Str := List Char

/-! ## Python string primitives -/

/-- One left-to-right, non-overlapping replacement pass, as performed by
Python `str.replace(pat, rep)` with pattern `p :: ps`: at each position,
if the pattern starts there it is consumed and `rep` emitted, and scanning
resumes after the consumed occurrence. -/
def replaceGo (p : Char) (ps rep : Str) : Str → Str
  | [] => []
  | c :: cs =>
    if (p :: ps).isPrefixOf (c :: cs) then rep ++ replaceGo p ps rep (cs.drop ps.length)
    else c :: replaceGo p ps rep cs
termination_by s => s.length
decreasing_by
  · simp only [List.length_cons]
    have h := List.length_drop ps.length cs
    omega
  · simp

/-- Python `s.replace(pat, rep)`: replaces every non-overlapping occurrence
of `pat`, scanning left to right.  (Python's behaviour for an empty pattern
is not needed by the program; the empty pattern is a no-op here.) -/
def pyReplace (s pat rep : Str) : Str :=
  match pat with
  | [] => s
  | p :: ps => replaceGo p ps rep s

/-- Splitting on a non-empty separator pattern `p :: ps`, keeping empty
pieces, as Python `str.split(sep)` does. -/
def splitGo (p : Char) (ps : Str) : Str → List Str
  | [] => [[]]
  | c :: cs =>
    if (p :: ps).isPrefixOf (c :: cs) then [] :: splitGo p ps (cs.drop ps.length)
    else
      match splitGo p ps cs with
      | [] => [[c]]
      | w :: rest => (c :: w) :: rest
termination_by s => s.length
decreasing_by
  · simp only [List.length_cons]
    have h := List.length_drop ps.length cs
    omega
  · simp

/-- Python `s.split(sep)` for a single-character separator, keeping empty
pieces (so `"/a//b".split("/") = ["", "a", "", "b"]`). -/
def pySplitChar (sep : Char) (s : Str) : List Str :=
  splitGo sep [] s

/-- Remove the characters satisfying `p` from the end of the list. -/
def dropTrail (p : Char → Bool) (s : Str) : Str :=
  (s.reverse.dropWhile p).reverse

/-- Python `s.strip(chars)` generalised to a predicate: removes matching
characters from both ends. -/
def pyStrip (p : Char → Bool) (s : Str) : Str :=
  dropTrail p (s.dropWhile p)

/-- The 26 ASCII upper/lower case letter pairs. -/
def lcPairs : List (Char × Char) :=
  [('A', 'a'), ('B', 'b'), ('C', 'c'), ('D', 'd'), ('E', 'e'), ('F', 'f'),
   ('G', 'g'), ('H', 'h'), ('I', 'i'), ('J', 'j'), ('K', 'k'), ('L', 'l'),
   ('M', 'm'), ('N', 'n'), ('O', 'o'), ('P', 'p'), ('Q', 'q'), ('R', 'r'),
   ('S', 's'), ('T', 't'), ('U', 'u'), ('V', 'v'), ('W', 'w'), ('X', 'x'),
   ('Y', 'y'), ('Z', 'z')]

/-- Lower-case one character (ASCII model of Python `str.lower`). -/
def lcChar (c : Char) : Char :=
  ((lcPairs.find? (fun q => q.1 = c)).map Prod.snd).getD c

/-- Upper-case one character (ASCII model of Python `str.upper`). -/
def ucChar (c : Char) : Char :=
  ((lcPairs.find? (fun q => q.2 = c)).map Prod.fst).getD c

/-- Python `s.lower()` (ASCII fragment). -/
def pyLower (s : Str) : Str := s.map lcChar

/-- ASCII letter test (model of Python `str.isalpha` on the ASCII range). -/
def alphaChar (c : Char) : Bool :=
  ('A' ≤ c && c ≤ 'Z') || ('a' ≤ c && c ≤ 'z')

/-- Helper for `pyTitle`: `prev` records whether the previous character was
a letter. -/
def titleGo (prev : Bool) : Str → Str
  | [] => []
  | c :: cs =>
    (if alphaChar c then (if prev then lcChar c else ucChar c) else c) ::
      titleGo (alphaChar c) cs

/-- Python `s.title()` (ASCII fragment): the first letter of every maximal
letter run is upper-cased, the following letters lower-cased. -/
def pyTitle (s : Str) : Str := titleGo false s

/-- ASCII whitespace test (the characters Python `str.split()` splits on,
restricted to ASCII). -/
def wsChar (c : Char) : Bool :=
  c = ' ' || c = '\t' || c = '\n' || c = '\x0b' || c = '\x0c' || c = '\r'

/-- Python `s.split()` with no argument: maximal runs of non-whitespace,
no empty words. -/
def pySplitWs : Str → List Str
  | [] => []
  | c :: cs =>
    if wsChar c then pySplitWs cs
    else (c :: cs.takeWhile (fun d => !wsChar d)) ::
      pySplitWs (cs.dropWhile (fun d => !wsChar d))
termination_by s => s.length
decreasing_by
  · simp
  · simp only [List.length_cons]
    have h := (List.dropWhile_sublist (l := cs) (fun d => !wsChar d)).length_le
    omega

/-- Python `str.strip()` with no argument: strip whitespace at both ends. -/
def pyStripWs (s : Str) : Str := pyStrip wsChar s

/-! ## Registry name derivation (`discover_specs`, line 55) -/

/-- The name-cleaning expression of `discover_specs`
(`spec_server.py:55-57`), applied to a filename stem:
`stem.replace("-openapi", "").replace("_openapi", "").replace("openapi", "")
.replace("-", "_").replace(".", "_").strip("_")`, falling back to the stem
itself when the result is empty. -/
def cleanStem (stem : Str) : Str :=
  let s1 := pyReplace stem "-openapi".toList []
  let s2 := pyReplace s1 "_openapi".toList []
  let s3 := pyReplace s2 "openapi".toList []
  let s4 := pyReplace s3 ['-'] ['_']
  let s5 := pyReplace s4 ['.'] ['_']
  pyStrip (fun c => c = '_') s5

/-- The full derivation of `spec_server.py:55-57`: the cleaning chain with
the fall-back to the raw stem when it comes out empty (line 56-57). -/
def deriveName (stem : Str) : Str :=
  if cleanStem stem = [] then stem else cleanStem stem

/-- Index of the last `'.'` in the list, if any (Python `str.rfind('.')`). -/
def rfindDot : Str → Option Nat
  | [] => none
  | c :: cs =>
    match rfindDot cs with
    | some i => some (i + 1)
    | none => if c = '.' then some 0 else none

/-- `pathlib.PurePath.stem` for a bare filename: the name with its last
dot-suffix removed, where a suffix exists only when the last dot is neither
the first nor the last character. -/
def pathStem (s : Str) : Str :=
  match rfindDot s with
  | some i => if 0 < i ∧ i < s.length - 1 then s.take i else s
  | none => s

/-- The registry key derived from a filename, as `discover_specs` computes
it: `deriveName` applied to the filename's stem. -/
def registryKey (filename : Str) : Str :=
  deriveName (pathStem filename)

/-- Removal of every occurrence of a pattern, written as the spec describes
the derivation: cut the string at each occurrence and concatenate the
pieces. -/
def removeAllSpec (s pat : Str) : Str :=
  match pat with
  | [] => s
  | p :: ps => (splitGo p ps s).flatten

/-- The name derivation as §4.3 of the spec words it, with removal at every
occurrence (the amended reading): remove `-openapi`, `_openapi`, `openapi`
in that order, turn every remaining `-` and `.` into `_`, strip `_` from
both ends, and fall back to the stem when empty. -/
def deriveNameSpec (stem : Str) : Str :=
  let s1 := removeAllSpec stem "-openapi".toList
  let s2 := removeAllSpec s1 "_openapi".toList
  let s3 := removeAllSpec s2 "openapi".toList
  let s4 := s3.map (fun c => if c = '-' then '_' else c)
  let s5 := s4.map (fun c => if c = '.' then '_' else c)
  let s6 := pyStrip (fun c => c = '_') s5
  if s6 = [] then stem else s6

/-- First occurrence only of a non-empty pattern replaced, as the claim
(but not the code) describes the removal. -/
def replaceFirstGo (p : Char) (ps rep : Str) : Str → Str
  | [] => []
  | c :: cs =>
    if (p :: ps).isPrefixOf (c :: cs) then rep ++ cs.drop ps.length
    else c :: replaceFirstGo p ps rep cs

/-- The claimed (first-occurrence) reading of the name derivation: each of
the three `openapi` patterns removed only at its first occurrence. -/
def deriveNameClaimed (stem : Str) : Str :=
  let s1 := replaceFirstGo '-' "openapi".toList [] stem
  let s2 := replaceFirstGo '_' "openapi".toList [] s1
  let s3 := replaceFirstGo 'o' "penapi".toList [] s2
  let s4 := s3.map (fun c => if c = '-' then '_' else c)
  let s5 := s4.map (fun c => if c = '.' then '_' else c)
  let s6 := pyStrip (fun c => c = '_') s5
  if s6 = [] then stem else s6

/-- Lexicographic order on strings by code point, the order Python's
`sorted` uses on `str`. -/
def lexLe : Str → Str → Bool
  | [], _ => true
  | _ :: _, [] => false
  | a :: as, b :: bs => if a < b then true else if a = b then lexLe as bs else false

/-! ## OpenAPI document model and metadata extraction -/

/-- Operation object of an OpenAPI path item; the three fields the code
reads with `.get(key, '')` (absent field = empty string). -/
structure Operation where
  operationId : Str := []
  summary : Str := []
  description : Str := []
deriving DecidableEq, Repr

/-- Path item: the dictionary from HTTP-method key to operation object,
iterated in insertion order (`path_item.items()`). -/
abbrev PathItem := List (Str × Operation)

/-- Entry of the top-level `tags` sequence: a mapping (read through
`tag.get('name', '')`), a plain string, or anything else (skipped). -/
inductive TagEntry where
  | dict (name : Str)
  | str (s : Str)
  | other
deriving DecidableEq, Repr

/-- The parts of a parsed OpenAPI document the extractors and handlers
read.  `info.title`/`info.description`/`info.version` are `Option` because
the code distinguishes an absent key (default taken) from an empty string;
`servers` is modelled by each server entry’s `url` field (the only field
read); `schemas`/`securitySchemes` only ever have their lengths taken
(`get_spec_info`), so the model keeps the counts. -/
structure Doc where
  paths : List (Str × PathItem) := []
  tags : List TagEntry := []
  infoTitle : Option Str := none
  infoDescription : Option Str := none
  infoVersion : Option Str := none
  servers : List Str := []
  schemas : Nat := 0
  securitySchemes : Nat := 0
deriving DecidableEq, Repr

/-- The five HTTP method names accepted at `spec_server.py:71`. -/
def httpMethods : List Str :=
  ["get".toList, "post".toList, "put".toList, "delete".toList, "patch".toList]

/-- Capabilities collected from one `(path, method, operation)` triple
(`spec_server.py:70-91`): the operationId verbatim when non-empty, then
the path segments of the lowercased path that are non-empty, do not start
with `{` and are longer than 2, then the first 3 words of the lowercased
summary longer than 3. -/
def opCapabilities (path method : Str) (operation : Operation) : List Str :=
  if pyLower method ∈ httpMethods then
    let operation_id := operation.operationId
    let summary := pyLower operation.summary
    let path_lower := pyLower path
    let path_segments := (pySplitChar '/' path_lower).filter
      (fun seg => match seg with
        | [] => false
        | c :: _ => !(c = '{'))
    (if operation_id ≠ [] then [operation_id] else []) ++
      path_segments.filter (fun seg => seg.length > 2) ++
      (if summary ≠ [] then
        ((pySplitWs summary).filter (fun w => w.length > 3)).take 3
      else [])
  else []

/-- The capability stop-word set of `spec_server.py:94`. -/
def commonWordsCaps : List Str :=
  ["get", "post", "put", "delete", "patch", "the", "and", "for", "with",
   "from", "this", "that", "are", "you", "all", "can", "will", "one",
   "use"].map String.toList

/-- `extract_capabilities_from_spec` (`spec_server.py:64-96`): collect
capabilities over all paths and methods, de-duplicate (`set`), drop stop
words and strings of length ≤ 2, and sort. -/
def extract_capabilities_from_spec (spec_data : Doc) : List Str :=
  let capabilities :=
    (spec_data.paths.map (fun pe =>
      (pe.2.map (fun mo => opCapabilities pe.1 mo.1 mo.2)).flatten)).flatten
  let filtered_capabilities := capabilities.dedup.filter
    (fun cap => decide (cap ∉ commonWordsCaps ∧ cap.length > 2))
  filtered_capabilities.mergeSort lexLe

/-- The tag stop-word set of `spec_server.py:121`. -/
def commonWordsTags : List Str :=
  ["api", "the", "and", "for", "with", "from", "this", "that", "are",
   "you", "all", "can", "will", "one", "use", "get", "via", "about",
   "information", "data", "service", "services"].map String.toList

/-- The punctuation set of `str.strip('.,!?;:')` at `spec_server.py:122`. -/
def punctChar (c : Char) : Bool :=
  c = '.' || c = ',' || c = '!' || c = '?' || c = ';' || c = ':'

/-- The list comprehension of `spec_server.py:122`: keep the words longer
than 3 characters that are not stop words (tested before stripping), and
strip the kept words of surrounding punctuation. -/
def meaningfulWords (words : List Str) : List Str :=
  (words.filter (fun word => decide (word.length > 3 ∧ word ∉ commonWordsTags))).map
    (pyStrip punctChar)

/-- `extract_tags_from_spec` (`spec_server.py:98-128`): tags declared in
the document (lowercased, empty mapping names dropped), then the first 5
meaningful words of `title + " " + description`, de-duplicated
(`list(set(tags))`, modelled as order-preserving de-duplication). -/
def extract_tags_from_spec (spec_data : Doc) (spec_name : Str) : List Str :=
  let tags := spec_data.tags.filterMap (fun tag =>
    match tag with
    | TagEntry.dict name =>
      let tag_name := pyLower name
      if tag_name ≠ [] then some tag_name else none
    | TagEntry.str s => some (pyLower s)
    | TagEntry.other => none)
  let title := pyLower (spec_data.infoTitle.getD [])
  let description := pyLower (spec_data.infoDescription.getD [])
  let all_text := title ++ [' '] ++ description
  let words := pySplitWs all_text
  let meaningful_words := meaningfulWords words
  (tags ++ meaningful_words.take 5).dedup

/-- The word pipeline in the order the claim states it: length filter,
THEN punctuation stripping, THEN stop-word filter (on the stripped word),
then the first 5. -/
def meaningfulWordsClaimed (words : List Str) : List Str :=
  (((words.filter (fun word => decide (word.length > 3))).map
    (pyStrip punctChar)).filter (fun word => decide (word ∉ commonWordsTags)))

/-- The word pipeline as the amended claim words it: walk the words in
order; a word is kept when it is longer than 3 characters and (before any
stripping) not a stop word; the kept word contributes its stripped form. -/
def meaningfulWordsSpec : List Str → List Str
  | [] => []
  | word :: words =>
    if word.length > 3 ∧ word ∉ commonWordsTags then
      pyStrip punctChar word :: meaningfulWordsSpec words
    else meaningfulWordsSpec words

/-- Example document for C3: one path `/weather/{id}` with a bare `get`
operation. -/
def weatherPathDoc : Doc where
  paths := [("/weather/{id}".toList, [("get".toList, {})])]

/-- Example document for C4: a `get` operation whose operationId has
upper-case letters. -/
def getWeatherOpDoc : Doc where
  paths := [("/weather".toList,
    [("get".toList, { operationId := "GetWeather".toList })])]

/-- Example document for C5 (spec example): title `Weather API for
Cities`. -/
def weatherTitleDoc : Doc where
  infoTitle := some "Weather API for Cities".toList

/-- Counterexample document for C5: the word `data.` passes the stop-word
test before stripping, and strips to the stop word `data`. -/
def dataTitleDoc : Doc where
  infoTitle := some "data. stuff".toList

/-! ## Registry, filesystem model and HTTP handlers -/

/-- Result of `file_path.stat()`: the two fields the code reads. -/
structure StatData where
  size : Nat
  mtime : Nat
deriving DecidableEq, Repr

/-- One spec file as a request observes it: its name/path/suffix from the
registry entry, whether it still exists, the outcome of opening and
parsing it (`json.load`/`yaml.safe_load`, with the exception message), and
the outcome of `stat`.  The open+parse of the `with open(...)` block is
folded into `parsed`. -/
structure SpecFile where
  fileName : Str
  filePath : Str
  suffix : Str
  existsOnDisk : Bool
  parsed : Except Str Doc
  statOutcome : Except Str StatData
deriving Repr

/-- The in-memory registry `discovered_specs`, with each entry's file state
at request time. -/
abbrev Registry := List (Str × SpecFile)

/-- Collection record built by the root handler (`spec_server.py:158-165`
and 172-179). -/
structure Collection where
  name : Str
  tags : List Str
  description : Str
  openapi_spec : Str
  capabilities : List Str
  base_url : Str
deriving DecidableEq, Repr

/-- URL told to clients for a spec's JSON form (`spec_server.py:162`). -/
def openapiSpecUrl (spec_name : Str) : Str :=
  "http://0.0.0.0:8001/".toList ++ spec_name ++ "/openapi.json".toList

/-- The minimal fallback record the root handler appends for a spec whose
processing raised (`spec_server.py:172-179`): empty tags, empty
capabilities, titled name, no base URL. -/
def fallbackCollection (spec_name : Str) : Collection where
  name := pyTitle (pyReplace spec_name ['_'] [' '])
  tags := []
  description := pyTitle spec_name ++ " API".toList
  openapi_spec := openapiSpecUrl spec_name
  capabilities := []
  base_url := []

/-- One iteration of the root handler's loop (`spec_server.py:135-179`):
skip entries whose file no longer exists (`continue`, line 137-138), skip
unknown suffixes (line 146-147), build the full record from a parsed
document, and degrade to `fallbackCollection` when opening/parsing
raised. -/
def rootItem (spec_name : Str) (f : SpecFile) : Option Collection :=
  if f.existsOnDisk = false then none
  else if pyLower f.suffix = ".json".toList ∨
      pyLower f.suffix = ".yaml".toList ∨ pyLower f.suffix = ".yml".toList then
    match f.parsed with
    | Except.ok spec_data =>
      some { name := spec_data.infoTitle.getD (pyTitle (pyReplace spec_name ['_'] [' '])),
             tags := extract_tags_from_spec spec_data spec_name,
             description := pyStripWs
               (spec_data.infoDescription.getD (pyTitle spec_name ++ " API".toList)),
             openapi_spec := openapiSpecUrl spec_name,
             capabilities := extract_capabilities_from_spec spec_data,
             base_url := spec_data.servers.headD [] }
    | Except.error _ => some (fallbackCollection spec_name)
  else none

/-- The `/` handler (`spec_server.py:130-181`): the collection list over
all registry entries, one loop iteration appending at most one record. -/
def root (discovered_specs : Registry) : List Collection :=
  discovered_specs.filterMap (fun e => rootItem e.1 e.2)

/-- Per-item record of the `/specs` handler: the successful shape
(`spec_server.py:196-208`) or the error shape (211-215). -/
inductive SpecEntryInfo where
  | ok (name fileName fileType yamlUrl jsonUrl downloadUrl infoUrl filePath : Str)
      (existsOnDisk : Bool) (sizeBytes : Nat) (modifiedTime : Option Nat)
  | err (name fileName error : Str)
deriving DecidableEq, Repr

/-- One iteration of the `/specs` loop (`spec_server.py:193-215`):
`file_stat = file_path.stat() if file_path.exists() else None`; a raising
`stat` is caught and turned into the error record. -/
def listItem (spec_name : Str) (f : SpecFile) : SpecEntryInfo :=
  if f.existsOnDisk then
    match f.statOutcome with
    | Except.ok st =>
      SpecEntryInfo.ok spec_name f.fileName f.suffix
        ("/".toList ++ spec_name ++ "/openapi.yaml".toList)
        ("/".toList ++ spec_name ++ "/openapi.json".toList)
        ("/".toList ++ spec_name ++ "/download".toList)
        ("/".toList ++ spec_name ++ "/info".toList)
        f.filePath true st.size (some st.mtime)
    | Except.error e => SpecEntryInfo.err spec_name f.fileName e
  else
    SpecEntryInfo.ok spec_name f.fileName f.suffix
      ("/".toList ++ spec_name ++ "/openapi.yaml".toList)
      ("/".toList ++ spec_name ++ "/openapi.json".toList)
      ("/".toList ++ spec_name ++ "/download".toList)
      ("/".toList ++ spec_name ++ "/info".toList)
      f.filePath false 0 none

/-- Response body of `/specs` (`spec_server.py:217-221`). -/
structure SpecsResponse where
  specifications : List SpecEntryInfo
  count : Nat
  specs_directory : Str
deriving DecidableEq, Repr

/-- The `/specs` handler (`spec_server.py:188-221`): always returns the
payload (HTTP 200) with one record per registry entry. -/
def list_specifications (specs_dir : Str) (discovered_specs : Registry) :
    SpecsResponse :=
  let specs := discovered_specs.map (fun e => listItem e.1 e.2)
  { specifications := specs, count := specs.length, specs_directory := specs_dir }

/-- Insert into the name → filename mapping with Python `dict` assignment
semantics: an existing key keeps its position and gets the new value,
otherwise the pair is appended. -/
def insertKey (m : List (Str × Str)) (k v : Str) : List (Str × Str) :=
  if m.any (fun e => e.1 = k) then
    m.map (fun e => if e.1 = k then (k, v) else e)
  else m ++ [(k, v)]

/-- `discover_specs` (`spec_server.py:44-62`) over a model of the specs
directory: `none` when the directory does not exist (line 47-49, empty
mapping returned), otherwise the filenames matched by the globs `*.yaml`,
`*.yml`, `*.json` in scan order; each file is keyed by `registryKey` of
its name, later files overwriting earlier ones with the same key. -/
def discover_specs (specsDir : Option (List Str)) : List (Str × Str) :=
  match specsDir with
  | none => []
  | some files => files.foldl (fun m fp => insertKey m (registryKey fp) fp) []

/-- The 404 detail for an unknown spec name (`spec_server.py:227` etc.):
`"Specification '<name>' not found"`. -/
def notFoundDetail (spec_name : Str) : Str :=
  "Specification '".toList ++ spec_name ++ "' not found".toList

/-- The 404 detail for a registered file that vanished
(`spec_server.py:232` etc.). -/
def fileNotFoundDetail (f : SpecFile) : Str :=
  "Specification file not found: ".toList ++ f.filePath

/-- The shared cache header value. -/
def cacheHeader : Str := "public, max-age=3600".toList

/-- Response of the YAML/JSON/download handlers: a `FileResponse` of the
file on disk, a converted `Response` carrying the re-encoded parsed
document, an `HTTPException`, or Python's implicit `None` when the
`if`/`elif` chain falls through. -/
inductive ServeResult where
  | file (path mediaType disposition cacheControl : Str)
  | converted (doc : Doc) (mediaType disposition cacheControl : Str)
  | error (status : Nat) (detail : Str)
  | noResponse
deriving DecidableEq, Repr

/-- `get_spec_yaml` (`spec_server.py:223-262`): 404 on unknown name or
missing file; YAML served directly; JSON parsed and re-encoded as YAML;
parse failure mapped to 500. -/
def get_spec_yaml (discovered_specs : Registry) (spec_name : Str) : ServeResult :=
  match discovered_specs.lookup spec_name with
  | none => ServeResult.error 404 (notFoundDetail spec_name)
  | some f =>
    if f.existsOnDisk = false then ServeResult.error 404 (fileNotFoundDetail f)
    else if pyLower f.suffix = ".yaml".toList ∨ pyLower f.suffix = ".yml".toList then
      ServeResult.file f.filePath "application/x-yaml".toList
        ("inline; filename=".toList ++ spec_name ++ "-openapi.yaml".toList)
        cacheHeader
    else if pyLower f.suffix = ".json".toList then
      match f.parsed with
      | Except.ok d =>
        ServeResult.converted d "application/x-yaml".toList
          ("inline; filename=".toList ++ spec_name ++ "-openapi.yaml".toList)
          cacheHeader
      | Except.error e =>
        ServeResult.error 500 ("Error serving specification: ".toList ++ e)
    else ServeResult.noResponse

/-- `get_spec_json` (`spec_server.py:264-303`): mirror image of
`get_spec_yaml`. -/
def get_spec_json (discovered_specs : Registry) (spec_name : Str) : ServeResult :=
  match discovered_specs.lookup spec_name with
  | none => ServeResult.error 404 (notFoundDetail spec_name)
  | some f =>
    if f.existsOnDisk = false then ServeResult.error 404 (fileNotFoundDetail f)
    else if pyLower f.suffix = ".json".toList then
      ServeResult.file f.filePath "application/json".toList
        ("inline; filename=".toList ++ spec_name ++ "-openapi.json".toList)
        cacheHeader
    else if pyLower f.suffix = ".yaml".toList ∨ pyLower f.suffix = ".yml".toList then
      match f.parsed with
      | Except.ok d =>
        ServeResult.converted d "application/json".toList
          ("inline; filename=".toList ++ spec_name ++ "-openapi.json".toList)
          cacheHeader
      | Except.error e =>
        ServeResult.error 500 ("Error serving specification: ".toList ++ e)
    else ServeResult.noResponse

/-- `download_spec` (`spec_server.py:305-327`): the original file as an
attachment. -/
def download_spec (discovered_specs : Registry) (spec_name : Str) : ServeResult :=
  match discovered_specs.lookup spec_name with
  | none => ServeResult.error 404 (notFoundDetail spec_name)
  | some f =>
    if f.existsOnDisk = false then ServeResult.error 404 (fileNotFoundDetail f)
    else
      ServeResult.file f.filePath "application/octet-stream".toList
        ("attachment; filename=".toList ++ f.fileName)
        cacheHeader

/-- The `endpoint_paths` field: the path list when there are at most 50
paths, else a count string (`spec_server.py:361`). -/
inductive EndpointPaths where
  | listed (paths : List Str)
  | counted (text : Str)
deriving DecidableEq, Repr

/-- Response of `/​{name}/info`. -/
inductive InfoResult where
  | ok (spec_name title version description : Str) (endpoints : Nat)
      (endpointPaths : EndpointPaths) (schemas securitySchemes : Nat)
      (servers : List Str) (fileName filePath fileType : Str)
      (sizeBytes mtime : Nat)
  | error (status : Nat) (detail : Str)
deriving DecidableEq, Repr

/-- Decimal digits of a natural number (for the `"<n> endpoints"` text). -/
def natDigits (n : Nat) : Str :=
  (Nat.toDigits 10 n)

/-- `get_spec_info` (`spec_server.py:329-380`): 404 on unknown name or
missing file; parse or `stat` failure inside the `try` becomes a 500 with
`"Error reading specification: "` and the message.  (A non-yaml/json
suffix raises an `HTTPException(400)` inside the `try`, which the
`except Exception` clause itself converts to such a 500; the model folds
that branch's message into the same shape.) -/
def get_spec_info (discovered_specs : Registry) (spec_name : Str) : InfoResult :=
  match discovered_specs.lookup spec_name with
  | none => InfoResult.error 404 (notFoundDetail spec_name)
  | some f =>
    if f.existsOnDisk = false then InfoResult.error 404 (fileNotFoundDetail f)
    else if pyLower f.suffix = ".json".toList ∨
        pyLower f.suffix = ".yaml".toList ∨ pyLower f.suffix = ".yml".toList then
      match f.parsed, f.statOutcome with
      | Except.ok spec_data, Except.ok st =>
        InfoResult.ok spec_name
          (spec_data.infoTitle.getD "Unknown".toList)
          (spec_data.infoVersion.getD "Unknown".toList)
          (spec_data.infoDescription.getD [])
          spec_data.paths.length
          (if spec_data.paths.length ≤ 50 then
            EndpointPaths.listed (spec_data.paths.map Prod.fst)
          else
            EndpointPaths.counted
              (natDigits spec_data.paths.length ++ " endpoints (too many to list)".toList))
          spec_data.schemas spec_data.securitySchemes spec_data.servers
          f.fileName f.filePath f.suffix st.size st.mtime
      | Except.error e, _ =>
        InfoResult.error 500 ("Error reading specification: ".toList ++ e)
      | _, Except.error e =>
        InfoResult.error 500 ("Error reading specification: ".toList ++ e)
    else
      InfoResult.error 500
        ("Error reading specification: 400: Unsupported file type: ".toList ++ f.suffix)

/-- A registry entry whose file has vanished, for the C10 example. -/
def vanishedFile : SpecFile where
  fileName := "gone.yaml".toList
  filePath := "specs/gone.yaml".toList
  suffix := ".yaml".toList
  existsOnDisk := false
  parsed := Except.error "unreadable".toList
  statOutcome := Except.error "unreadable".toList

/-- A healthy YAML registry entry whose document parses to
`weatherTitleDoc`, for the C7 witness. -/
def healthyFile : SpecFile where
  fileName := "weather.yaml".toList
  filePath := "specs/weather.yaml".toList
  suffix := ".yaml".toList
  existsOnDisk := true
  parsed := Except.ok weatherTitleDoc
  statOutcome := Except.ok { size := 120, mtime := 1700000000 }

/-- A registry entry whose YAML no longer parses, for the C7 witness. -/
def brokenFile : SpecFile where
  fileName := "broken.yaml".toList
  filePath := "specs/broken.yaml".toList
  suffix := ".yaml".toList
  existsOnDisk := true
  parsed := Except.error "invalid yaml".toList
  statOutcome := Except.ok { size := 7, mtime := 1700000001 }

/-! ## Format transcoder (C6)

Modelled from the spec: the Transcoder of §4.2 is realized in the program
by the external `json`/`yaml` libraries (`json.load`/`json.dumps` at
`spec_server.py:143,291`, `yaml.safe_load`/`yaml.dump` at 145,250), whose
code is not under `src/`.  The document tree is the spec's tagged union
{Mapping, Sequence, String, Number, Bool, Null} (§9), with numbers
restricted to integers (the spec's round trip is stated \"ignoring numeric
type widening\", and floating point is outside the embedding).  JSON is
encoded with 2-space indentation (§4.2) and decoded by a
whitespace-insensitive recursive parser; YAML is encoded in block style
with quoted scalars, preserving key order, and decoded line-wise. -/

mutual
/-- Untyped document tree: the spec's tagged union of §9. -/
inductive DocTree where
  | str (s : Str)
  | num (n : Int)
  | bool (b : Bool)
  | null
  | arr (items : TreeList)
  | obj (fields : FieldList)
deriving DecidableEq, Repr
/-- Sequence of trees (a JSON/YAML array's elements). -/
inductive TreeList where
  | nil
  | cons (v : DocTree) (rest : TreeList)
deriving DecidableEq, Repr
/-- Ordered fields of a mapping: key/value pairs in document order. -/
inductive FieldList where
  | nil
  | cons (key : Str) (v : DocTree) (rest : FieldList)
deriving DecidableEq, Repr
end

mutual
/-- Size of a tree, a fuel bound for the parser. -/
def sizeT : DocTree → Nat
  | DocTree.str _ => 1
  | DocTree.num _ => 1
  | DocTree.bool _ => 1
  | DocTree.null => 1
  | DocTree.arr vs => sizeL vs + 1
  | DocTree.obj fs => sizeF fs + 1
/-- Total size of a tree list. -/
def sizeL : TreeList → Nat
  | TreeList.nil => 0
  | TreeList.cons v vs => sizeT v + sizeL vs
/-- Total size of a field list. -/
def sizeF : FieldList → Nat
  | FieldList.nil => 0
  | FieldList.cons _ v fs => sizeT v + sizeF fs
end

/-- The whitespace characters a JSON parser skips. -/
def jsonWs (c : Char) : Bool :=
  c = ' ' || c = '\n' || c = '\t' || c = '\r'

/-- Skip insignificant whitespace. -/
def skipWs (s : Str) : Str := s.dropWhile jsonWs

/-- `n` spaces of indentation. -/
def spaces (n : Nat) : Str := List.replicate n ' '

/-- The sixteen lower-case hex digits. -/
def hexChars : Str := "0123456789abcdef".toList

/-- Hex digit of a value below 16. -/
def hexDigit (k : Nat) : Char := hexChars.getD k '0'

/-- Value of a hex digit (idx in the table; garbage otherwise). -/
def hexVal (c : Char) : Nat := hexChars.indexOf c

/-- ASCII decimal digit test. -/
def isDigitChar (c : Char) : Bool := '0' ≤ c && c ≤ '9'

/-- JSON escaping of one string character: quote, backslash and the three
common control characters by short escapes, other control characters by
`\u00XY`, everything else verbatim. -/
def escChar (c : Char) : Str :=
  if c = '"' then ['\\', '"']
  else if c = '\\' then ['\\', '\\']
  else if c = '\n' then ['\\', 'n']
  else if c = '\t' then ['\\', 't']
  else if c = '\r' then ['\\', 'r']
  else if c.toNat < 32 then
    ['\\', 'u', '0', '0', hexDigit (c.toNat / 16), hexDigit (c.toNat % 16)]
  else [c]

/-- Escaped body of a string literal. -/
def escString (s : Str) : Str := (s.map escChar).flatten

/-- A double-quoted string literal. -/
def encStr (s : Str) : Str := '"' :: escString s ++ ['"']

/-- Decimal digits of a natural number, most significant first. -/
def natDec (n : Nat) : Str :=
  if h : n < 10 then [hexDigit n]
  else natDec (n / 10) ++ [hexDigit (n % 10)]
termination_by n
decreasing_by
  exact Nat.div_lt_self (by omega) (by omega)

/-- Decimal form of an integer. -/
def intDec (i : Int) : Str :=
  if i < 0 then '-' :: natDec i.natAbs else natDec i.natAbs

mutual
/-- JSON encoding at indentation depth `d`, in the style of
`json.dumps(..., indent=2)`: 2-space indent steps, `": "` after keys,
empty collections inline. -/
def encJson : DocTree → Nat → Str
  | DocTree.str s, _ => encStr s
  | DocTree.num n, _ => intDec n
  | DocTree.bool true, _ => "true".toList
  | DocTree.bool false, _ => "false".toList
  | DocTree.null, _ => "null".toList
  | DocTree.arr TreeList.nil, _ => "[]".toList
  | DocTree.arr (TreeList.cons v vs), d =>
    '[' :: '\n' :: spaces (d + 2) ++
      encJsonItems (TreeList.cons v vs) (d + 2) ++
      '\n' :: spaces d ++ [']']
  | DocTree.obj FieldList.nil, _ => "{}".toList
  | DocTree.obj (FieldList.cons k v fs), d =>
    '{' :: '\n' :: spaces (d + 2) ++
      encJsonFields (FieldList.cons k v fs) (d + 2) ++
      '\n' :: spaces d ++ ['}']
/-- The comma-and-newline separated encodings of array items. -/
def encJsonItems : TreeList → Nat → Str
  | TreeList.nil, _ => []
  | TreeList.cons v TreeList.nil, d => encJson v d
  | TreeList.cons v vs, d =>
    encJson v d ++ ',' :: '\n' :: spaces d ++ encJsonItems vs d
/-- The comma-and-newline separated `"key": value` encodings of fields. -/
def encJsonFields : FieldList → Nat → Str
  | FieldList.nil, _ => []
  | FieldList.cons k v FieldList.nil, d => encStr k ++ ':' :: ' ' :: encJson v d
  | FieldList.cons k v fs, d =>
    encStr k ++ ':' :: ' ' :: encJson v d ++ ',' :: '\n' :: spaces d ++
      encJsonFields fs d
end

/-- The JSON text of a document (`json.dumps(..., indent=2)`). -/
def encodeJson (v : DocTree) : Str := encJson v 0

/-- Parse the body of a string literal after its opening quote, undoing
`escChar`. -/
def parseStrBody : Str → Option (Str × Str)
  | [] => none
  | c :: cs =>
    if c = '"' then some ([], cs)
    else if c = '\\' then
      match cs with
      | [] => none
      | e :: cs2 =>
        if e = '"' then (parseStrBody cs2).map (fun p => ('"' :: p.1, p.2))
        else if e = '\\' then (parseStrBody cs2).map (fun p => ('\\' :: p.1, p.2))
        else if e = 'n' then (parseStrBody cs2).map (fun p => ('\n' :: p.1, p.2))
        else if e = 't' then (parseStrBody cs2).map (fun p => ('\t' :: p.1, p.2))
        else if e = 'r' then (parseStrBody cs2).map (fun p => ('\r' :: p.1, p.2))
        else if e = 'u' then
          match cs2 with
          | h1 :: h2 :: h3 :: h4 :: cs3 =>
            (parseStrBody cs3).map (fun p =>
              (Char.ofNat
                (((hexVal h1 * 16 + hexVal h2) * 16 + hexVal h3) * 16 + hexVal h4)
                :: p.1, p.2))
          | _ => none
        else none
    else (parseStrBody cs).map (fun p => (c :: p.1, p.2))
termination_by s => s.length
decreasing_by
  all_goals simp only [List.length_cons]
  all_goals omega

/-- Parse a non-empty run of decimal digits as a natural number. -/
def parseNat (s : Str) : Option (Nat × Str) :=
  let ds := s.takeWhile isDigitChar
  if ds = [] then none
  else some (ds.foldl (fun a c => 10 * a + hexVal c) 0, s.dropWhile isDigitChar)

/-- Parse `, value` repetitions of a JSON array body up to `]`, with `pv`
parsing one value. -/
def parseItemsGo (pv : Str → Option (DocTree × Str)) : Nat → Str → Option (TreeList × Str)
  | 0, _ => none
  | n + 1, s =>
    match pv s with
    | none => none
    | some (v, r) =>
      match skipWs r with
      | ',' :: r2 =>
        match parseItemsGo pv n r2 with
        | some (vs, r3) => some (TreeList.cons v vs, r3)
        | none => none
      | ']' :: r2 => some (TreeList.cons v TreeList.nil, r2)
      | _ => none

/-- Parse `"key": value` repetitions of a JSON object body up to `}`. -/
def parseFieldsGo (pv : Str → Option (DocTree × Str)) : Nat → Str → Option (FieldList × Str)
  | 0, _ => none
  | n + 1, s =>
    match skipWs s with
    | '"' :: r =>
      match parseStrBody r with
      | none => none
      | some (k, r1) =>
        match skipWs r1 with
        | ':' :: r2 =>
          match pv r2 with
          | none => none
          | some (v, r3) =>
            match skipWs r3 with
            | ',' :: r4 =>
              match parseFieldsGo pv n r4 with
              | some (fs, r5) => some (FieldList.cons k v fs, r5)
              | none => none
            | '}' :: r4 => some (FieldList.cons k v FieldList.nil, r4)
            | _ => none
        | _ => none
    | _ => none

/-- Fuel-indexed recursive-descent JSON value parser, dispatching on the
first significant character. -/
def parseVal : Nat → Str → Option (DocTree × Str)
  | 0, _ => none
  | fuel + 1, s =>
    match skipWs s with
    | [] => none
    | c :: r =>
      if c = '"' then (parseStrBody r).map (fun p => (DocTree.str p.1, p.2))
      else if c = 't' then
        if "rue".toList.isPrefixOf r then some (DocTree.bool true, r.drop 3) else none
      else if c = 'f' then
        if "alse".toList.isPrefixOf r then some (DocTree.bool false, r.drop 4) else none
      else if c = 'n' then
        if "ull".toList.isPrefixOf r then some (DocTree.null, r.drop 3) else none
      else if c = '[' then
        match skipWs r with
        | [] => none
        | c2 :: r2 =>
          if c2 = ']' then some (DocTree.arr TreeList.nil, r2)
          else
            match parseItemsGo (parseVal fuel) (fuel + 1) r with
            | some (vs, r3) => some (DocTree.arr vs, r3)
            | none => none
      else if c = '{' then
        match skipWs r with
        | [] => none
        | c2 :: r2 =>
          if c2 = '}' then some (DocTree.obj FieldList.nil, r2)
          else
            match parseFieldsGo (parseVal fuel) (fuel + 1) r with
            | some (fs, r3) => some (DocTree.obj fs, r3)
            | none => none
      else if c = '-' then
        (parseNat r).map (fun p => (DocTree.num (-(p.1 : Int)), p.2))
      else if isDigitChar c then
        (parseNat (c :: r)).map (fun p => (DocTree.num (p.1 : Int), p.2))
      else none

/-- Decode a JSON text: parse one value, then only whitespace may
remain. -/
def decodeJson (s : Str) : Option DocTree :=
  match parseVal (s.length + 1) s with
  | some (v, r) => if skipWs r = [] then some v else none
  | none => none


/-- A printed YAML line: indentation column and content. -/
abbrev YLine := Nat × Str

/-- Is a tree printed inline on one YAML line (a scalar or an empty
collection)? -/
def isInline : DocTree → Bool
  | DocTree.arr (TreeList.cons _ _) => false
  | DocTree.obj (FieldList.cons _ _ _) => false
  | _ => true

/-- The inline YAML token of a scalar or empty collection. -/
def inlineTok : DocTree → Str
  | DocTree.str s => encStr s
  | DocTree.num n => intDec n
  | DocTree.bool true => "true".toList
  | DocTree.bool false => "false".toList
  | DocTree.null => "null".toList
  | DocTree.arr _ => "[]".toList
  | DocTree.obj _ => "{}".toList

mutual
/-- Block-style YAML lines of a tree at indentation `i`, in the style of
`yaml.dump(..., default_flow_style=False, sort_keys=False)`: scalars and
empty collections inline, sequence items behind `- `, nested non-inline
values on following lines indented two columns further, keys
double-quoted. -/
def encYaml : DocTree → Nat → List YLine
  | DocTree.arr (TreeList.cons v vs), i => encYamlItems (TreeList.cons v vs) i
  | DocTree.obj (FieldList.cons k v fs), i =>
    encYamlFields (FieldList.cons k v fs) i
  | DocTree.str s, i => [(i, encStr s)]
  | DocTree.num n, i => [(i, intDec n)]
  | DocTree.bool true, i => [(i, "true".toList)]
  | DocTree.bool false, i => [(i, "false".toList)]
  | DocTree.null, i => [(i, "null".toList)]
  | DocTree.arr TreeList.nil, i => [(i, "[]".toList)]
  | DocTree.obj FieldList.nil, i => [(i, "{}".toList)]
/-- The `- item` lines of a YAML sequence. -/
def encYamlItems : TreeList → Nat → List YLine
  | TreeList.nil, _ => []
  | TreeList.cons v vs, i =>
    (if isInline v then [(i, '-' :: ' ' :: inlineTok v)]
     else (i, ['-']) :: encYaml v (i + 2)) ++ encYamlItems vs i
/-- The `"key": value` lines of a YAML mapping. -/
def encYamlFields : FieldList → Nat → List YLine
  | FieldList.nil, _ => []
  | FieldList.cons k v fs, i =>
    (if isInline v then [(i, encStr k ++ ':' :: ' ' :: inlineTok v)]
     else (i, encStr k ++ [':']) :: encYaml v (i + 2)) ++ encYamlFields fs i
end

/-- Render YAML lines: each content behind its indentation, lines joined
with newlines. -/
def renderLines : List YLine → Str
  | [] => []
  | [(i, c)] => spaces i ++ c
  | (i, c) :: l2 :: ls => spaces i ++ c ++ '\n' :: renderLines (l2 :: ls)

/-- The YAML text of a document (`yaml.dump` block style). -/
def encodeYaml (v : DocTree) : Str := renderLines (encYaml v 0)

/-- Indentation width of a raw line. -/
def countSpaces (s : Str) : Nat := (s.takeWhile (fun c => c == ' ')).length

/-- Split a raw line into indentation and content. -/
def toYLine (s : Str) : YLine :=
  (countSpaces s, s.dropWhile (fun c => c == ' '))

/-- The indented lines of a YAML text. -/
def splitYLines (s : Str) : List YLine := (pySplitChar '\n' s).map toYLine

/-- Parse one complete inline YAML token. -/
def parseInlineY (s : Str) : Option DocTree :=
  if s = "true".toList then some (DocTree.bool true)
  else if s = "false".toList then some (DocTree.bool false)
  else if s = "null".toList then some DocTree.null
  else if s = "[]".toList then some (DocTree.arr TreeList.nil)
  else if s = "{}".toList then some (DocTree.obj FieldList.nil)
  else
    match s with
    | [] => none
    | c :: r =>
      if c = '"' then
        match parseStrBody r with
        | some (t, []) => some (DocTree.str t)
        | _ => none
      else if c = '-' then
        match parseNat r with
        | some (n, []) => some (DocTree.num (-(n : Int)))
        | _ => none
      else if isDigitChar c then
        match parseNat (c :: r) with
        | some (n, []) => some (DocTree.num (n : Int))
        | _ => none
      else none

/-- Does a line content start a sequence item (`-` alone or `- ...`)? -/
def isSeqStart (c : Str) : Bool :=
  c = ['-'] || "- ".toList.isPrefixOf c

/-- Does a line content start a mapping entry (a double-quoted key)? -/
def isMapStart : Str → Bool
  | '"' :: _ => true
  | _ => false

/-- Does the next line continue a sequence at indentation `i`? -/
def moreSeq (i : Nat) : List YLine → Bool
  | [] => false
  | (j, c) :: _ => j == i && isSeqStart c

/-- Does the next line continue a mapping at indentation `i`? -/
def moreMap (i : Nat) : List YLine → Bool
  | [] => false
  | (j, c) :: _ => j == i && isMapStart c

/-- Parse successive `- item` lines of a sequence at indentation `i`, with
`pb` parsing a nested block. -/
def parseYSeqGo (pb : Nat → List YLine → Option (DocTree × List YLine)) :
    Nat → Nat → List YLine → Option (TreeList × List YLine)
  | 0, _, _ => none
  | _ + 1, _, [] => none
  | n + 1, i, (j, c) :: rest =>
    if j = i then
      match c with
      | '-' :: [] =>
        match pb (i + 2) rest with
        | some (v, rest2) =>
          if moreSeq i rest2 then
            match parseYSeqGo pb n i rest2 with
            | some (vs, rest3) => some (TreeList.cons v vs, rest3)
            | none => none
          else some (TreeList.cons v TreeList.nil, rest2)
        | none => none
      | '-' :: ' ' :: c2 =>
        match parseInlineY c2 with
        | some v =>
          if moreSeq i rest then
            match parseYSeqGo pb n i rest with
            | some (vs, rest2) => some (TreeList.cons v vs, rest2)
            | none => none
          else some (TreeList.cons v TreeList.nil, rest)
        | none => none
      | _ => none
    else none

/-- Parse successive `"key": value` lines of a mapping at indentation
`i`. -/
def parseYMapGo (pb : Nat → List YLine → Option (DocTree × List YLine)) :
    Nat → Nat → List YLine → Option (FieldList × List YLine)
  | 0, _, _ => none
  | _ + 1, _, [] => none
  | n + 1, i, (j, c) :: rest =>
    if j = i then
      match c with
      | '"' :: c1 =>
        match parseStrBody c1 with
        | some (k, ':' :: ' ' :: c2) =>
          match parseInlineY c2 with
          | some v =>
            if moreMap i rest then
              match parseYMapGo pb n i rest with
              | some (fs, rest2) => some (FieldList.cons k v fs, rest2)
              | none => none
            else some (FieldList.cons k v FieldList.nil, rest)
          | none => none
        | some (k, ':' :: []) =>
          match pb (i + 2) rest with
          | some (v, rest2) =>
            if moreMap i rest2 then
              match parseYMapGo pb n i rest2 with
              | some (fs, rest3) => some (FieldList.cons k v fs, rest3)
              | none => none
            else some (FieldList.cons k v FieldList.nil, rest2)
          | none => none
        | _ => none
      | _ => none
    else none

/-- Fuel-indexed block parser: one YAML value at indentation `i`. -/
def parseYBlock : Nat → Nat → List YLine → Option (DocTree × List YLine)
  | 0, _, _ => none
  | _ + 1, _, [] => none
  | fuel + 1, i, (j, c) :: rest =>
    if j = i then
      if isSeqStart c then
        match parseYSeqGo (parseYBlock fuel) (fuel + 1) i ((j, c) :: rest) with
        | some (vs, rest2) => some (DocTree.arr vs, rest2)
        | none => none
      else
        match c with
        | [] => none
        | c0 :: c1 =>
          if c0 = '"' then
            match parseStrBody c1 with
            | some (t, []) => some (DocTree.str t, rest)
            | some (_, ':' :: _) =>
              match parseYMapGo (parseYBlock fuel) (fuel + 1) i ((j, c0 :: c1) :: rest) with
              | some (fs, rest2) => some (DocTree.obj fs, rest2)
              | none => none
            | _ => none
          else
            match parseInlineY (c0 :: c1) with
            | some v => some (v, rest)
            | none => none
    else none

/-- Decode a YAML text: split into lines, parse one block at column 0;
nothing may remain. -/
def decodeYaml (s : Str) : Option DocTree :=
  match parseYBlock ((splitYLines s).length + 1) 0 (splitYLines s) with
  | some (v, []) => some v
  | _ => none

/-- Lines that may legally follow a block at indentation `i`: none, or a
next line strictly less indented. -/
def restLower (i : Nat) : List YLine → Prop
  | [] => True
  | (j, _) :: _ => j < i


/-- A well-formed printed line: content free of newlines and not starting
with a space. -/
def goodLine : YLine → Prop
  | (_, c) => (∀ d ∈ c, d ≠ '\n') ∧ ∀ d t, c = d :: t → d ≠ ' '

/-! ## Theorems -/

theorem splitGo_ne_nil (p : Char) (ps : Str) (s : Str) : splitGo p ps s ≠ [] := by
  cases s with
  | nil => simp [splitGo]
  | cons c cs =>
    rw [splitGo]
    split
    · simp
    · split <;> simp

theorem replaceGo_nil_eq_flatten_aux (p : Char) (ps : Str) :
    ∀ (n : Nat) (s : Str), s.length ≤ n →
      replaceGo p ps [] s = (splitGo p ps s).flatten := by
  intro n
  induction n with
  | zero =>
    intro s hs
    have hz : s = [] := List.length_eq_zero.mp (Nat.le_zero.mp hs)
    subst hz
    simp [replaceGo, splitGo]
  | succ n ih =>
    intro s hs
    cases s with
    | nil => simp [replaceGo, splitGo]
    | cons c cs =>
      have hcs : cs.length ≤ n := by
        simp only [List.length_cons] at hs
        omega
      rw [replaceGo, splitGo]
      by_cases h : (p :: ps).isPrefixOf (c :: cs) = true
      · rw [if_pos h, if_pos h, List.flatten_cons]
        have hd : (cs.drop ps.length).length ≤ n := by
          simp only [List.length_drop]
          omega
        rw [ih _ hd]
      · rw [if_neg h, if_neg h]
        have hcs2 := ih cs hcs
        rcases hsplit : splitGo p ps cs with _ | ⟨w, rest⟩
        · exact absurd hsplit (splitGo_ne_nil p ps cs)
        · rw [hsplit] at hcs2
          simp [hcs2, hsplit]

theorem replaceGo_nil_eq_flatten (p : Char) (ps s : Str) :
    replaceGo p ps [] s = (splitGo p ps s).flatten :=
  replaceGo_nil_eq_flatten_aux p ps s.length s (Nat.le_refl _)

theorem replaceGo_single_eq_map (a b : Char) (s : Str) :
    replaceGo a [] [b] s = s.map (fun c => if c = a then b else c) := by
  induction s with
  | nil => simp [replaceGo]
  | cons c cs ih =>
    rw [replaceGo]
    by_cases h : c = a
    · subst h
      have hp : ([c].isPrefixOf (c :: cs)) = true := by simp [List.isPrefixOf]
      rw [if_pos hp]
      simp [ih]
    · have hp : ¬ (([a].isPrefixOf (c :: cs)) = true) := by
        simp only [List.isPrefixOf, List.isPrefixOf_nil_left, Bool.and_true]
        exact fun hh => h (beq_iff_eq.mp hh).symm
      rw [if_neg hp]
      simp [h, ih]

/-- C1, amended part.  The registry name derivation of `discover_specs`
(`registryKey`, translated from `spec_server.py:55-57`) removes the three
substrings `-openapi`, `_openapi`, `openapi` at EVERY non-overlapping
occurrence (scanning left to right), in that order — not only at the first
occurrence — then replaces every remaining `-` and `.` by `_`, strips
leading and trailing `_`, and falls back to the original stem when the
result is empty: it coincides with `deriveNameSpec`, the spec-worded
pipeline with removal at every occurrence. -/
theorem c1_name_derivation_every_occurrence (filename : Str) :
    registryKey filename = deriveNameSpec (pathStem filename) := by
  unfold registryKey deriveName cleanStem deriveNameSpec
  rw [show ("-openapi".toList) = '-' :: "openapi".toList from rfl,
      show ("_openapi".toList) = '_' :: "openapi".toList from rfl,
      show ("openapi".toList) = 'o' :: "penapi".toList from rfl]
  simp only [pyReplace, removeAllSpec, replaceGo_nil_eq_flatten, replaceGo_single_eq_map]

/-- C1, counterexample.  On the filename `openapiopenapi.yaml` the code
(`registryKey`) removes both occurrences of `openapi`, leaving the empty
string, and falls back to the stem `openapiopenapi`; removal at only the
first occurrence per substring, as the claim states it
(`deriveNameClaimed`), would instead give `openapi`. -/
theorem c1_counterexample :
    registryKey "openapiopenapi.yaml".toList = "openapiopenapi".toList ∧
      deriveNameClaimed (pathStem "openapiopenapi.yaml".toList) = "openapi".toList ∧
      registryKey "openapiopenapi.yaml".toList ≠
        deriveNameClaimed (pathStem "openapiopenapi.yaml".toList) := by
  refine ⟨?_, ?_, ?_⟩ <;>
    simp +decide [registryKey, deriveName, cleanStem, deriveNameClaimed, pyReplace,
      replaceGo, replaceFirstGo, pyStrip, dropTrail, pathStem, rfindDot]

theorem replaceGo_eq_self_of_not_infix (p : Char) (ps rep : Str) (s : Str)
    (h : ¬ ((p :: ps) <:+: s)) : replaceGo p ps rep s = s := by
  induction s with
  | nil => simp [replaceGo]
  | cons c cs ih =>
    rw [List.infix_cons_iff, not_or] at h
    have hp : ¬ ((p :: ps).isPrefixOf (c :: cs) = true) := fun hb =>
      h.1 (List.isPrefixOf_iff_prefix.mp hb)
    rw [replaceGo, if_neg hp, ih h.2]

theorem pyReplace_eq_self_of_not_infix (s pat rep : Str) (h : ¬ (pat <:+: s)) :
    pyReplace s pat rep = s := by
  cases pat with
  | nil => rfl
  | cons p ps => exact replaceGo_eq_self_of_not_infix p ps rep s h

theorem map_eq_self_of_mem {f : Char → Char} {s : Str} (h : ∀ c ∈ s, f c = c) :
    s.map f = s := by
  induction s with
  | nil => rfl
  | cons c cs ih =>
    simp only [List.map_cons, h c (List.mem_cons_self c cs),
      ih (fun d hd => h d (List.mem_cons_of_mem c hd))]

theorem dropWhile_idem (p : Char → Bool) (s : Str) :
    List.dropWhile p (List.dropWhile p s) = List.dropWhile p s := by
  induction s with
  | nil => rfl
  | cons c cs ih =>
    by_cases h : p c = true
    · rw [List.dropWhile_cons_of_pos h, ih]
    · rw [List.dropWhile_cons_of_neg h, List.dropWhile_cons_of_neg h]

theorem dropTrail_idem (p : Char → Bool) (s : Str) :
    dropTrail p (dropTrail p s) = dropTrail p s := by
  unfold dropTrail
  rw [List.reverse_reverse, dropWhile_idem]

theorem dropWhile_dropTrail_of_dropWhile_eq_self (p : Char → Bool) (v : Str)
    (h : List.dropWhile p v = v) : List.dropWhile p (dropTrail p v) = dropTrail p v := by
  cases v with
  | nil => simp [dropTrail]
  | cons c v' =>
    have hc : ¬ (p c = true) := by
      intro hpc
      have := congrArg List.length h
      rw [List.dropWhile_cons_of_pos hpc] at this
      have hlen := (List.dropWhile_sublist (l := v') p).length_le
      simp only [List.length_cons] at this
      omega
    unfold dropTrail
    rw [List.reverse_cons, List.dropWhile_append]
    by_cases he : (List.dropWhile p v'.reverse).isEmpty = true
    · rw [if_pos he]
      simp [List.dropWhile_cons_of_neg hc]
    · rw [if_neg he]
      simp [List.dropWhile_cons_of_neg hc]

theorem pyStrip_idem (p : Char → Bool) (s : Str) :
    pyStrip p (pyStrip p s) = pyStrip p s := by
  unfold pyStrip
  rw [dropWhile_dropTrail_of_dropWhile_eq_self p (List.dropWhile p s) (dropWhile_idem p s),
    dropTrail_idem]

theorem mem_dropTrail_subset {p : Char → Bool} {s : Str} {c : Char}
    (h : c ∈ dropTrail p s) : c ∈ s := by
  unfold dropTrail at h
  rw [List.mem_reverse] at h
  exact List.mem_reverse.mp ((List.dropWhile_sublist p).subset h)

theorem mem_pyStrip_subset {p : Char → Bool} {s : Str} {c : Char}
    (h : c ∈ pyStrip p s) : c ∈ s :=
  (List.dropWhile_sublist p).subset (mem_dropTrail_subset h)

theorem mem_cleanStem_no_dash_dot (stem : Str) :
    ∀ c ∈ cleanStem stem, c ≠ '-' ∧ c ≠ '.' := by
  intro c hc
  unfold cleanStem at hc
  simp only [show ∀ s : Str, pyReplace s ['-'] ['_'] = replaceGo '-' [] ['_'] s
      from fun _ => rfl,
    show ∀ s : Str, pyReplace s ['.'] ['_'] = replaceGo '.' [] ['_'] s
      from fun _ => rfl,
    replaceGo_single_eq_map] at hc
  have hc5 := mem_pyStrip_subset hc
  rw [List.mem_map] at hc5
  obtain ⟨d, hd, hdc⟩ := hc5
  rw [List.mem_map] at hd
  obtain ⟨e, _, hed⟩ := hd
  subst hdc
  subst hed
  constructor <;> (split_ifs <;> simp_all)

theorem pyStrip_cleanStem (stem : Str) :
    pyStrip (fun c => c = '_') (cleanStem stem) = cleanStem stem := by
  unfold cleanStem
  exact pyStrip_idem _ _

theorem cleanStem_eq_self (s : Str)
    (hinf : ¬ ("openapi".toList <:+: s))
    (hchars : ∀ c ∈ s, c ≠ '-' ∧ c ≠ '.')
    (hstrip : pyStrip (fun c => c = '_') s = s) :
    cleanStem s = s := by
  have h1 : ¬ ("-openapi".toList <:+: s) := fun h =>
    hinf (List.IsInfix.trans
      (show "openapi".toList <:+: "-openapi".toList from ⟨['-'], [], rfl⟩) h)
  have h2 : ¬ ("_openapi".toList <:+: s) := fun h =>
    hinf (List.IsInfix.trans
      (show "openapi".toList <:+: "_openapi".toList from ⟨['_'], [], rfl⟩) h)
  unfold cleanStem
  simp only [ pyReplace_eq_self_of_not_infix s _ _ h1,
    pyReplace_eq_self_of_not_infix s _ _ h2,
    pyReplace_eq_self_of_not_infix s _ _ hinf,
    show ∀ t : Str, pyReplace t ['-'] ['_'] = replaceGo '-' [] ['_'] t from fun _ => rfl,
    show ∀ t : Str, pyReplace t ['.'] ['_'] = replaceGo '.' [] ['_'] t from fun _ => rfl,
    replaceGo_single_eq_map]
  rw [map_eq_self_of_mem (fun c hc => if_neg ((hchars c hc).1)),
      map_eq_self_of_mem (fun c hc => if_neg ((hchars c hc).2)),
      hstrip]

theorem deriveName_ne_nil {stem : Str} (h : stem ≠ []) : deriveName stem ≠ [] := by
  unfold deriveName
  split
  · exact h
  · assumption

theorem rfindDot_append_yaml (s : Str) :
    rfindDot (s ++ ['.', 'y', 'a', 'm', 'l']) = some s.length := by
  induction s with
  | nil => decide
  | cons c cs ih => simp [rfindDot, ih]

theorem pathStem_append_yaml (s : Str) (h : s ≠ []) :
    pathStem (s ++ ".yaml".toList) = s := by
  rw [show (".yaml".toList) = ['.', 'y', 'a', 'm', 'l'] from rfl]
  have hcond : 0 < s.length ∧ s.length < (s ++ ['.', 'y', 'a', 'm', 'l']).length - 1 := by
    constructor
    · exact List.length_pos.mpr h
    · simp
  simp only [pathStem, rfindDot_append_yaml s]
  rw [if_pos hcond]
  exact List.take_left s _

/-- C2, amended part.  Re-deriving from `name + ".yaml"` re-applies the
cleaning chain to the name, so idempotence holds whenever the first derived
name no longer contains the substring `openapi` (for any real filename the
stem is non-empty): in that case `registryKey (name ++ ".yaml") = name`.
The counterexample `c2_counterexample` shows it fails in general. -/
theorem c2_rederive_stable_without_openapi (filename : Str)
    (h1 : pathStem filename ≠ [])
    (h2 : ¬ ("openapi".toList <:+: registryKey filename)) :
    registryKey (registryKey filename ++ ".yaml".toList) = registryKey filename := by
  unfold registryKey at h2 ⊢
  rw [pathStem_append_yaml _ (deriveName_ne_nil h1)]
  by_cases hc : cleanStem (pathStem filename) = []
  · have hd : deriveName (pathStem filename) = pathStem filename := by
      rw [deriveName, if_pos hc]
    rw [hd]
    exact hd
  · have hd : deriveName (pathStem filename) = cleanStem (pathStem filename) := by
      rw [deriveName, if_neg hc]
    rw [hd] at h2 ⊢
    have hclean := cleanStem_eq_self (cleanStem (pathStem filename)) h2
      (mem_cleanStem_no_dash_dot (pathStem filename))
      (pyStrip_cleanStem (pathStem filename))
    rw [deriveName, if_neg (fun hz => hc (by rw [hclean] at hz; exact hz)), hclean]

/-- C2, witness: the theorem applied to the filename `weather-openapi.yaml`,
whose derived name `weather` is `openapi`-free and re-derives to itself. -/
theorem c2_rederive_stable_witness :
    registryKey (registryKey "weather-openapi.yaml".toList ++ ".yaml".toList) =
      registryKey "weather-openapi.yaml".toList := by
  have hk : registryKey "weather-openapi.yaml".toList = "weather".toList := by
    simp +decide [registryKey, deriveName, cleanStem, pyReplace, replaceGo,
      pyStrip, dropTrail, pathStem, rfindDot]
  exact c2_rederive_stable_without_openapi "weather-openapi.yaml".toList
    (by decide) (by rw [hk]; decide)

/-- C2, counterexample.  Name derivation is not idempotent: the filename
`xopopenapienapi.yaml` derives to `xopenapi` (removing the inner `openapi`
splices a new one together, and the single replacement pass does not
rescan), and re-deriving from `xopenapi.yaml` gives `x`. -/
theorem c2_counterexample :
    registryKey "xopopenapienapi.yaml".toList = "xopenapi".toList ∧
      registryKey ("xopenapi".toList ++ ".yaml".toList) = "x".toList ∧
      registryKey (registryKey "xopopenapienapi.yaml".toList ++ ".yaml".toList) ≠
        registryKey "xopopenapienapi.yaml".toList := by
  refine ⟨?_, ?_, ?_⟩ <;>
    simp +decide [registryKey, deriveName, cleanStem, pyReplace, replaceGo,
      pyStrip, dropTrail, pathStem, rfindDot]

theorem lexLe_total : ∀ a b : Str, (lexLe a b || lexLe b a) = true := by
  intro a
  induction a with
  | nil => intro b; simp [lexLe]
  | cons c cs ih =>
    intro b
    cases b with
    | nil => simp [lexLe]
    | cons d ds =>
      by_cases h1 : c < d
      · simp [lexLe, h1]
      · by_cases h2 : c = d
        · subst h2
          simpa [lexLe] using ih ds
        · have h3 : d < c := lt_of_le_of_ne (le_of_not_lt h1) (fun hh => h2 hh.symm)
          simp [lexLe, h1, h2, h3]

theorem lexLe_trans :
    ∀ a b c : Str, lexLe a b = true → lexLe b c = true → lexLe a c = true := by
  intro a
  induction a with
  | nil => intro b c _ _; simp [lexLe]
  | cons x xs ih =>
    intro b c hab hbc
    cases b with
    | nil => simp [lexLe] at hab
    | cons y ys =>
      cases c with
      | nil => simp [lexLe] at hbc
      | cons z zs =>
        by_cases h1 : x < y
        · by_cases h2 : y < z
          · simp [lexLe, h1.trans h2]
          · by_cases h3 : y = z
            · subst h3
              simp [lexLe, h1]
            · simp [lexLe, h2, h3] at hbc
        · by_cases h1' : x = y
          · subst h1'
            simp only [lexLe, lt_self_iff_false, if_false, if_pos rfl] at hab
            by_cases h2 : x < z
            · simp [lexLe, h2]
            · by_cases h3 : x = z
              · subst h3
                simp only [lexLe, lt_self_iff_false, if_false, if_pos rfl] at hbc ⊢
                exact ih _ _ hab hbc
              · simp [lexLe, h2, h3] at hbc
          · simp [lexLe, h1, h1'] at hab

/-- C3.  `extract_capabilities_from_spec` returns the empty list on a
document with no paths; returns exactly `["weather"]` on the document whose
only path is `/weather/{id}` with a bare `get` operation; and on every
document the result is lexicographically ascending with no duplicates. -/
theorem c3_extract_capabilities_basic_and_sorted :
    extract_capabilities_from_spec {} = [] ∧
      extract_capabilities_from_spec weatherPathDoc = ["weather".toList] ∧
      ∀ spec_data : Doc,
        List.Pairwise (fun a b => lexLe a b = true)
            (extract_capabilities_from_spec spec_data) ∧
          (extract_capabilities_from_spec spec_data).Nodup := by
  refine ⟨?_, ?_, ?_⟩
  · simp [extract_capabilities_from_spec]
  · simp +decide [weatherPathDoc, extract_capabilities_from_spec, opCapabilities,
      pyLower, lcChar, lcPairs, pySplitChar, splitGo, pySplitWs, pyStrip, dropTrail,
      List.mergeSort, List.merge]
  · intro spec_data
    unfold extract_capabilities_from_spec
    constructor
    · exact List.sorted_mergeSort lexLe_trans lexLe_total _
    · exact (List.mergeSort_perm _ lexLe).symm.nodup
        ((List.nodup_dedup _).filter _)

theorem lcChar_idem (c : Char) : lcChar (lcChar c) = lcChar c := by
  cases hf : lcPairs.find? (fun q => q.1 = c) with
  | none =>
    have h : lcChar c = c := by
      unfold lcChar
      rw [hf]
      rfl
    rw [h]
    exact h
  | some q =>
    have hq := List.mem_of_find?_eq_some hf
    have h : lcChar c = q.2 := by
      unfold lcChar
      rw [hf]
      rfl
    have hfix : ∀ q ∈ lcPairs, lcChar q.2 = q.2 := by decide
    rw [h]
    exact hfix q hq

theorem pyLower_fixed_of_mem {w s : Str} (hsub : ∀ c ∈ w, c ∈ pyLower s) :
    pyLower w = w := by
  refine map_eq_self_of_mem (fun c hc => ?_)
  obtain ⟨d, _, hd⟩ := List.mem_map.mp (hsub c hc)
  rw [← hd]
  exact lcChar_idem d

theorem mem_of_mem_splitGo (p : Char) (ps : Str) :
    ∀ (n : Nat) (s : Str), s.length ≤ n → ∀ w ∈ splitGo p ps s, ∀ c ∈ w, c ∈ s := by
  intro n
  induction n with
  | zero =>
    intro s hs w hw c hc
    have hz : s = [] := List.length_eq_zero.mp (Nat.le_zero.mp hs)
    subst hz
    simp [splitGo] at hw
    subst hw
    simp at hc
  | succ n ih =>
    intro s hs w hw c hc
    cases s with
    | nil =>
      simp [splitGo] at hw
      subst hw
      simp at hc
    | cons a as =>
      have has : as.length ≤ n := by
        simp only [List.length_cons] at hs
        omega
      rw [splitGo] at hw
      by_cases h : (p :: ps).isPrefixOf (a :: as) = true
      · rw [if_pos h] at hw
        rcases List.mem_cons.mp hw with hw | hw
        · subst hw
          simp at hc
        · have hd : (as.drop ps.length).length ≤ n := by
            simp only [List.length_drop]
            omega
          exact List.mem_cons_of_mem a
            (List.drop_subset _ _ (ih _ hd w hw c hc))
      · rw [if_neg h] at hw
        rcases hsplit : splitGo p ps as with _ | ⟨w', rest⟩
        · exact absurd hsplit (splitGo_ne_nil p ps as)
        · rw [hsplit] at hw
          rcases List.mem_cons.mp hw with hw | hw
          · subst hw
            rcases List.mem_cons.mp hc with hc | hc
            · exact hc ▸ List.mem_cons_self a as
            · have hw'mem : w' ∈ splitGo p ps as := by
                rw [hsplit]
                exact List.mem_cons_self w' rest
              exact List.mem_cons_of_mem a (ih as has w' hw'mem c hc)
          · have hwmem : w ∈ splitGo p ps as := by
              rw [hsplit]
              exact List.mem_cons_of_mem w' hw
            exact List.mem_cons_of_mem a (ih as has w hwmem c hc)

theorem mem_of_mem_pySplitWs :
    ∀ (n : Nat) (s : Str), s.length ≤ n → ∀ w ∈ pySplitWs s, ∀ c ∈ w, c ∈ s := by
  intro n
  induction n with
  | zero =>
    intro s hs w hw c hc
    have hz : s = [] := List.length_eq_zero.mp (Nat.le_zero.mp hs)
    subst hz
    simp [pySplitWs] at hw
  | succ n ih =>
    intro s hs w hw c hc
    cases s with
    | nil => simp [pySplitWs] at hw
    | cons a as =>
      have has : as.length ≤ n := by
        simp only [List.length_cons] at hs
        omega
      rw [pySplitWs] at hw
      by_cases h : wsChar a = true
      · rw [if_pos h] at hw
        exact List.mem_cons_of_mem a (ih as has w hw c hc)
      · rw [if_neg h] at hw
        rcases List.mem_cons.mp hw with hw | hw
        · subst hw
          rcases List.mem_cons.mp hc with hc | hc
          · exact hc ▸ List.mem_cons_self a as
          · exact List.mem_cons_of_mem a
              ((List.takeWhile_sublist _).subset hc)
        · have hd : (as.dropWhile (fun d => !wsChar d)).length ≤ n := by
            have := (List.dropWhile_sublist (l := as) (fun d => !wsChar d)).length_le
            omega
          exact List.mem_cons_of_mem a
            ((List.dropWhile_sublist _).subset (ih _ hd w hw c hc))

/-- C4.  In `extract_capabilities_from_spec`, a capability coming from an
`operationId` is appended verbatim (case preserved), while every other
capability (path segment or summary word) is lower-case; the example
document shows an upper-case `GetWeather` surviving to the sorted output
unchanged. -/
theorem c4_operationid_verbatim_others_lowercased :
    (∀ (path method : Str) (operation : Operation),
        ∀ cap ∈ opCapabilities path method operation,
          cap = operation.operationId ∨ pyLower cap = cap) ∧
      (∀ (path method : Str) (operation : Operation),
          pyLower method ∈ httpMethods → operation.operationId ≠ [] →
            operation.operationId ∈ opCapabilities path method operation) ∧
      extract_capabilities_from_spec getWeatherOpDoc =
        ["GetWeather".toList, "weather".toList] ∧
      pyLower "GetWeather".toList ≠ "GetWeather".toList := by
  refine ⟨?_, ?_, ?_, by decide⟩
  · intro path method operation cap hcap
    unfold opCapabilities at hcap
    by_cases hm : pyLower method ∈ httpMethods
    · rw [if_pos hm] at hcap
      rcases List.mem_append.mp hcap with hcap | hcap
      · rcases List.mem_append.mp hcap with hcap | hcap
        · by_cases ho : operation.operationId ≠ []
          · rw [if_pos ho] at hcap
            rcases List.mem_cons.mp hcap with hcap | hcap
            · exact Or.inl hcap
            · simp at hcap
          · rw [if_neg ho] at hcap
            simp at hcap
        · refine Or.inr (pyLower_fixed_of_mem (s := path) (fun c hc => ?_))
          have hsplit := List.mem_of_mem_filter hcap
          exact mem_of_mem_splitGo '/' [] (pyLower path).length _ (Nat.le_refl _)
            cap (List.mem_of_mem_filter hsplit) c hc
      · by_cases hsum : pyLower operation.summary ≠ []
        · rw [if_pos hsum] at hcap
          refine Or.inr (pyLower_fixed_of_mem (s := operation.summary) (fun c hc => ?_))
          exact mem_of_mem_pySplitWs (pyLower operation.summary).length _ (Nat.le_refl _)
            cap (List.mem_of_mem_filter (List.mem_of_mem_take hcap)) c hc
        · rw [if_neg hsum] at hcap
          simp at hcap
    · rw [if_neg hm] at hcap
      simp at hcap
  · intro path method operation hm ho
    unfold opCapabilities
    rw [if_pos hm]
    simp [ho]
  · simp +decide [getWeatherOpDoc, extract_capabilities_from_spec, opCapabilities,
      pyLower, lcChar, lcPairs, pySplitChar, splitGo, pySplitWs, pyStrip, dropTrail,
      List.mergeSort, List.merge, lexLe]

/-- C4, witness: the general statement applied to a concrete `get`
operation with operationId `GetWeather`. -/
theorem c4_witness :
    "GetWeather".toList ∈
      opCapabilities "/weather".toList "get".toList
        { operationId := "GetWeather".toList } :=
  c4_operationid_verbatim_others_lowercased.2.1 "/weather".toList "get".toList
    { operationId := "GetWeather".toList } (by decide) (by decide)

/-- C5, counterexample.  The code tests stop-word membership on the word
BEFORE stripping punctuation: with title `data. stuff` the word `data.`
passes the stop-word test, is then stripped to `data`, and the stop word
`data` ends up among the tags — while the claim's strip-then-drop order
(`meaningfulWordsClaimed`) would drop it. -/
theorem c5_counterexample :
    extract_tags_from_spec dataTitleDoc [] = ["data".toList, "stuff".toList] ∧
      "data".toList ∈ commonWordsTags ∧
      meaningfulWordsClaimed (pySplitWs (pyLower "data. stuff".toList)) =
        ["stuff".toList] := by
  refine ⟨?_, by decide, ?_⟩ <;>
    simp +decide [dataTitleDoc, extract_tags_from_spec, meaningfulWords,
      meaningfulWordsClaimed, pyLower, lcChar, lcPairs, pySplitWs, pyStrip,
      dropTrail, wsChar, punctChar, List.dedup, List.pwFilter]

/-- C5, amended part.  In `extract_tags_from_spec`, a title/description
word is kept when it is longer than 3 characters and — tested before any
punctuation stripping — not a stop word; the kept word contributes its
form stripped of `.,!?;:` at both ends; at most the first 5 surviving
words are added.  The spec's example holds: the title `Weather API for
Cities` contributes `weather` and `cities` but neither `api` nor `for`. -/
theorem c5_tag_word_filtering :
    (∀ words : List Str, meaningfulWords words = meaningfulWordsSpec words) ∧
      ("weather".toList ∈ extract_tags_from_spec weatherTitleDoc [] ∧
        "cities".toList ∈ extract_tags_from_spec weatherTitleDoc [] ∧
        "api".toList ∉ extract_tags_from_spec weatherTitleDoc [] ∧
        "for".toList ∉ extract_tags_from_spec weatherTitleDoc []) ∧
      ∀ words : List Str, ((meaningfulWords words).take 5).length ≤ 5 := by
  refine ⟨?_, ?_, fun words => List.length_take_le 5 _⟩
  · intro words
    induction words with
    | nil => rfl
    | cons w ws ih =>
      unfold meaningfulWords meaningfulWordsSpec
      by_cases h : w.length > 3 ∧ w ∉ commonWordsTags
      · rw [List.filter_cons_of_pos (by simpa using h), List.map_cons, if_pos h]
        exact congrArg _ ih
      · rw [List.filter_cons_of_neg (by simpa using h), if_neg h]
        exact ih
  · have he : extract_tags_from_spec weatherTitleDoc [] =
        ["weather".toList, "cities".toList] := by
      simp +decide [weatherTitleDoc, extract_tags_from_spec, meaningfulWords,
        pyLower, lcChar, lcPairs, pySplitWs, pyStrip, dropTrail, wsChar,
        punctChar, List.dedup, List.pwFilter]
    rw [he]
    refine ⟨by decide, by decide, by decide, by decide⟩

/-- C7.  The root listing isolates per-item failures: an entry whose file
exists with a yaml/yml/json suffix but whose open/parse raised contributes
exactly the minimal fallback record — with empty tags and empty
capabilities — while every entry before and after it is processed exactly
as without the broken one, and the handler returns normally. -/
theorem c7_root_isolates_per_item_failures (pre post : Registry) (n : Str)
    (f : SpecFile) (e : Str)
    (hex : f.existsOnDisk = true)
    (hsuf : pyLower f.suffix = ".json".toList ∨ pyLower f.suffix = ".yaml".toList ∨
      pyLower f.suffix = ".yml".toList)
    (hparse : f.parsed = Except.error e) :
    root (pre ++ (n, f) :: post) =
        root pre ++ fallbackCollection n :: root post ∧
      (fallbackCollection n).tags = [] ∧
      (fallbackCollection n).capabilities = [] := by
  refine ⟨?_, rfl, rfl⟩
  unfold root
  rw [List.filterMap_append]
  have hi : rootItem n f = some (fallbackCollection n) := by
    unfold rootItem
    rw [hex, if_neg (by simp), if_pos hsuf, hparse]
  simp [List.filterMap_cons, hi]

/-- C7, witness: a two-entry registry where the second file's YAML is
invalid; the listing still has the healthy entry plus the fallback. -/
theorem c7_witness :
    root [("weather".toList, healthyFile), ("broken".toList, brokenFile)] =
        root [("weather".toList, healthyFile)] ++
          fallbackCollection "broken".toList :: root [] ∧
      (fallbackCollection "broken".toList).tags = [] ∧
      (fallbackCollection "broken".toList).capabilities = [] :=
  c7_root_isolates_per_item_failures [("weather".toList, healthyFile)] []
    "broken".toList brokenFile "invalid yaml".toList rfl (by decide) rfl

/-- C8.  Every single-item handler answers an unknown name with a 404
whose detail is exactly `Specification '<name>' not found`. -/
theorem c8_unknown_name_404 (discovered_specs : Registry) (spec_name : Str)
    (h : discovered_specs.lookup spec_name = none) :
    get_spec_yaml discovered_specs spec_name =
        ServeResult.error 404 (notFoundDetail spec_name) ∧
      get_spec_json discovered_specs spec_name =
        ServeResult.error 404 (notFoundDetail spec_name) ∧
      download_spec discovered_specs spec_name =
        ServeResult.error 404 (notFoundDetail spec_name) ∧
      get_spec_info discovered_specs spec_name =
        InfoResult.error 404 (notFoundDetail spec_name) := by
  refine ⟨?_, ?_, ?_, ?_⟩ <;>
    simp [get_spec_yaml, get_spec_json, download_spec, get_spec_info, h]

/-- C8, witness: requesting the name `unknown` against the empty registry
yields the literal detail string on all four handlers. -/
theorem c8_witness :
    get_spec_yaml [] "unknown".toList =
        ServeResult.error 404 "Specification 'unknown' not found".toList ∧
      get_spec_json [] "unknown".toList =
        ServeResult.error 404 "Specification 'unknown' not found".toList ∧
      download_spec [] "unknown".toList =
        ServeResult.error 404 "Specification 'unknown' not found".toList ∧
      get_spec_info [] "unknown".toList =
        InfoResult.error 404 "Specification 'unknown' not found".toList := by
  have h := c8_unknown_name_404 [] "unknown".toList rfl
  exact ⟨h.1.trans (by decide), h.2.1.trans (by decide),
    h.2.2.1.trans (by decide), h.2.2.2.trans (by decide)⟩

/-- C9.  A missing specs directory yields the empty mapping (not an
error), and `/specs` over the empty registry returns the total (HTTP 200)
payload with an empty list and count 0. -/
theorem c9_missing_directory_empty_listing :
    discover_specs none = [] ∧
      ∀ specs_dir : Str, list_specifications specs_dir [] =
        { specifications := [], count := 0, specs_directory := specs_dir } :=
  ⟨rfl, fun _ => rfl⟩

/-- C10.  A registry entry whose file no longer exists is silently skipped
by the root handler: the listing equals the listing without that entry (no
error, no fallback record), so the collection list can be shorter than the
registry. -/
theorem c10_missing_file_silently_omitted :
    (∀ (pre post : Registry) (n : Str) (f : SpecFile),
        f.existsOnDisk = false →
          root (pre ++ (n, f) :: post) = root (pre ++ post)) ∧
      root [("gone".toList, vanishedFile)] = [] ∧
      (root [("gone".toList, vanishedFile)]).length <
        [("gone".toList, vanishedFile)].length := by
  refine ⟨?_, ?_, ?_⟩
  · intro pre post n f hex
    unfold root
    rw [List.filterMap_append, List.filterMap_append]
    have hi : rootItem n f = none := by simp [rootItem, hex]
    simp [List.filterMap_cons, hi]
  · simp [root, rootItem, vanishedFile]
  · simp [root, rootItem, vanishedFile]

/-- C10, witness: the general omission statement applied to a concrete
registry with one vanished file. -/
theorem c10_witness :
    root ([("weather".toList, healthyFile)] ++
        ("gone".toList, vanishedFile) :: []) =
      root ([("weather".toList, healthyFile)] ++ []) :=
  c10_missing_file_silently_omitted.1 [("weather".toList, healthyFile)] []
    "gone".toList vanishedFile rfl

theorem hexVal_hexDigit : ∀ k : Nat, k < 16 → hexVal (hexDigit k) = k := by decide

theorem isDigit_hexDigit : ∀ k : Nat, k < 10 → isDigitChar (hexDigit k) = true := by decide

theorem jsonWs_hexDigit : ∀ k : Nat, k < 10 → jsonWs (hexDigit k) = false := by decide

theorem hexDigit_ne_brackets :
    ∀ k : Nat, k < 10 → hexDigit k ≠ ']' ∧ hexDigit k ≠ '}' := by decide

theorem jsonWs_not_digit (c : Char) (h : jsonWs c = true) : isDigitChar c = false := by
  have hc : c = ' ' ∨ c = '\n' ∨ c = '\t' ∨ c = '\r' := by
    simpa [jsonWs, or_assoc] using h
  rcases hc with hc | hc | hc | hc <;> subst hc <;> decide

theorem skipWs_cons_neg {c : Char} (t : Str) (h : jsonWs c = false) :
    skipWs (c :: t) = c :: t := by
  unfold skipWs
  rw [List.dropWhile_cons_of_neg (by simp [h])]

theorem skipWs_ws_append {pre : Str} (hpre : ∀ c ∈ pre, jsonWs c = true) (t : Str) :
    skipWs (pre ++ t) = skipWs t := by
  induction pre with
  | nil => rfl
  | cons c cs ih =>
    unfold skipWs
    rw [List.cons_append, List.dropWhile_cons_of_pos (hpre c (List.mem_cons_self c cs))]
    exact ih (fun d hd => hpre d (List.mem_cons_of_mem c hd))

theorem spaces_all_ws (n : Nat) : ∀ c ∈ spaces n, jsonWs c = true := by
  intro c hc
  rw [spaces, List.mem_replicate] at hc
  rw [hc.2]
  decide

theorem skipWs_idem (s : Str) : skipWs (skipWs s) = skipWs s :=
  dropWhile_idem jsonWs s

theorem natDec_head_digit : ∀ n : Nat, ∃ k t, k < 10 ∧ natDec n = hexDigit k :: t := by
  intro n
  induction n using Nat.strong_induction_on with
  | _ n ih =>
    rw [natDec]
    by_cases h : n < 10
    · exact ⟨n, [], h, by rw [dif_pos h]⟩
    · obtain ⟨k, t, hk, heq⟩ := ih (n / 10) (Nat.div_lt_self (by omega) (by omega))
      exact ⟨k, t ++ [hexDigit (n % 10)], hk, by rw [dif_neg h, heq, List.cons_append]⟩

theorem natDec_all_digits : ∀ n : Nat, ∀ c ∈ natDec n, isDigitChar c = true := by
  intro n
  induction n using Nat.strong_induction_on with
  | _ n ih =>
    intro c hc
    rw [natDec] at hc
    by_cases h : n < 10
    · rw [dif_pos h] at hc
      rcases List.mem_cons.mp hc with hc | hc
      · rw [hc]
        exact isDigit_hexDigit n h
      · simp at hc
    · rw [dif_neg h] at hc
      rcases List.mem_append.mp hc with hc | hc
      · exact ih (n / 10) (Nat.div_lt_self (by omega) (by omega)) c hc
      · rcases List.mem_cons.mp hc with hc | hc
        · rw [hc]
          exact isDigit_hexDigit _ (Nat.mod_lt n (by omega))
        · simp at hc

theorem natDec_ne_nil (n : Nat) : natDec n ≠ [] := by
  obtain ⟨k, t, _, heq⟩ := natDec_head_digit n
  rw [heq]
  simp

theorem encJson_head (v : DocTree) (d : Nat) :
    ∃ c t, encJson v d = c :: t ∧ jsonWs c = false ∧ c ≠ ']' ∧ c ≠ '}' := by
  cases v with
  | str s => exact ⟨'"', _, by rw [encJson]; rfl, by decide, by decide, by decide⟩
  | num n =>
    by_cases h : n < 0
    · exact ⟨'-', _, by rw [encJson, intDec, if_pos h], by decide, by decide, by decide⟩
    · obtain ⟨k, t, hk, heq⟩ := natDec_head_digit n.natAbs
      refine ⟨hexDigit k, t, ?_, jsonWs_hexDigit k hk,
        (hexDigit_ne_brackets k hk).1, (hexDigit_ne_brackets k hk).2⟩
      rw [encJson, intDec, if_neg h, heq]
  | bool b =>
    cases b with
    | true => exact ⟨'t', _, by rw [encJson]; rfl, by decide, by decide, by decide⟩
    | false => exact ⟨'f', _, by rw [encJson]; rfl, by decide, by decide, by decide⟩
  | null => exact ⟨'n', _, by rw [encJson]; rfl, by decide, by decide, by decide⟩
  | arr vs =>
    cases vs with
    | nil => exact ⟨'[', _, by rw [encJson]; rfl, by decide, by decide, by decide⟩
    | cons v vs => exact ⟨'[', _, by rw [encJson]; rfl, by decide, by decide, by decide⟩
  | obj fs =>
    cases fs with
    | nil => exact ⟨'{', _, by rw [encJson]; rfl, by decide, by decide, by decide⟩
    | cons k v fs => exact ⟨'{', _, by rw [encJson]; rfl, by decide, by decide, by decide⟩

theorem skipWs_enc_append (v : DocTree) (d : Nat) (rest : Str) :
    skipWs (encJson v d ++ rest) = encJson v d ++ rest := by
  obtain ⟨c, t, heq, hws, _, _⟩ := encJson_head v d
  rw [heq, List.cons_append, skipWs_cons_neg _ hws]

/-- Head-is-a-digit test on a raw string. -/
def headDigit : Str → Bool
  | [] => false
  | c :: _ => isDigitChar c

theorem headDigit_of_skipWs {t : Str} {c : Char} {r : Str}
    (h : skipWs t = c :: r) (hc : isDigitChar c = false) : headDigit t = false := by
  cases t with
  | nil => rfl
  | cons a t' =>
    by_cases ha : jsonWs a = true
    · exact jsonWs_not_digit a ha
    · rw [skipWs_cons_neg t' (by simpa using ha)] at h
      have : a = c := (List.cons.injEq _ _ _ _).mp h |>.1
      rw [headDigit, this, hc]

theorem parseStrBody_escape : ∀ (s rest : Str),
    parseStrBody (escString s ++ '"' :: rest) = some (s, rest) := by
  intro s
  induction s with
  | nil =>
    intro rest
    rw [show escString ([] : Str) = [] from rfl, List.nil_append, parseStrBody.eq_def]
    simp
  | cons c cs ih =>
    intro rest
    have hflat : escString (c :: cs) = escChar c ++ escString cs := by
      simp [escString]
    rw [hflat, List.append_assoc]
    unfold escChar
    by_cases h1 : c = '"'
    · subst h1
      rw [if_pos rfl]
      rw [parseStrBody.eq_def]
      simp +decide [ih]
    · rw [if_neg h1]
      by_cases h2 : c = '\\'
      · subst h2
        rw [if_pos rfl]
        rw [parseStrBody.eq_def]
        simp +decide [ih]
      · rw [if_neg h2]
        by_cases h3 : c = '\n'
        · subst h3
          rw [if_pos rfl]
          rw [parseStrBody.eq_def]
          simp +decide [ih]
        · rw [if_neg h3]
          by_cases h4 : c = '\t'
          · subst h4
            rw [if_pos rfl]
            rw [parseStrBody.eq_def]
            simp +decide [ih]
          · rw [if_neg h4]
            by_cases h5 : c = '\r'
            · subst h5
              rw [if_pos rfl]
              rw [parseStrBody.eq_def]
              simp +decide [ih]
            · rw [if_neg h5]
              by_cases h6 : c.toNat < 32
              · rw [if_pos h6]
                have h0 : hexVal '0' = 0 := by decide
                have hd1 : hexVal (hexDigit (c.toNat / 16)) = c.toNat / 16 :=
                  hexVal_hexDigit _ (by omega)
                have hd2 : hexVal (hexDigit (c.toNat % 16)) = c.toNat % 16 :=
                  hexVal_hexDigit _ (by omega)
                have hval : ((hexVal '0' * 16 + hexVal '0') * 16 +
                    hexVal (hexDigit (c.toNat / 16))) * 16 +
                    hexVal (hexDigit (c.toNat % 16)) = c.toNat := by
                  rw [h0, hd1, hd2]
                  omega
                rw [parseStrBody.eq_def]
                simp +decide [ih, hval, Char.ofNat_toNat]
              · rw [if_neg h6]
                rw [parseStrBody.eq_def]
                simp +decide [h1, h2, ih]

theorem takeWhile_all_append {p : Char → Bool} : ∀ (a b : Str),
    (∀ c ∈ a, p c = true) → (∀ c t, b = c :: t → p c = false) →
    List.takeWhile p (a ++ b) = a ∧ List.dropWhile p (a ++ b) = b := by
  intro a
  induction a with
  | nil =>
    intro b _ hb
    cases b with
    | nil => simp
    | cons c t =>
      constructor
      · rw [List.nil_append, List.takeWhile_cons_of_neg (by simp [hb c t rfl])]
      · rw [List.nil_append, List.dropWhile_cons_of_neg (by simp [hb c t rfl])]
  | cons x a' ih =>
    intro b ha hb
    have hx : p x = true := ha x (List.mem_cons_self x a')
    obtain ⟨ht, hd⟩ := ih b (fun c hc => ha c (List.mem_cons_of_mem x hc)) hb
    constructor
    · rw [List.cons_append, List.takeWhile_cons_of_pos hx, ht]
    · rw [List.cons_append, List.dropWhile_cons_of_pos hx, hd]

theorem natVal_natDec : ∀ n : Nat,
    (natDec n).foldl (fun a c => 10 * a + hexVal c) 0 = n := by
  intro n
  induction n using Nat.strong_induction_on with
  | _ n ih =>
    rw [natDec]
    by_cases h : n < 10
    · rw [dif_pos h]
      simp [hexVal_hexDigit n (by omega)]
    · rw [dif_neg h, List.foldl_append,
        ih (n / 10) (Nat.div_lt_self (by omega) (by omega))]
      simp [hexVal_hexDigit (n % 10) (by omega)]
      omega

theorem parseNat_natDec (n : Nat) (rest : Str) (hrest : headDigit rest = false) :
    parseNat (natDec n ++ rest) = some (n, rest) := by
  have hb : ∀ c t, rest = c :: t → isDigitChar c = false := by
    intro c t h
    rw [h] at hrest
    simpa [headDigit] using hrest
  obtain ⟨ht, hd⟩ := takeWhile_all_append (natDec n) rest (natDec_all_digits n) hb
  simp [parseNat, ht, hd, natDec_ne_nil n, natVal_natDec n]

theorem sizeT_pos : ∀ v : DocTree, 1 ≤ sizeT v := by
  intro v
  cases v <;> simp [sizeT]

theorem skipWs_head_neg {a : Str} (h : ∃ c t, a = c :: t ∧ jsonWs c = false)
    (rest : Str) : skipWs (a ++ rest) = a ++ rest := by
  obtain ⟨c, t, heq, hws⟩ := h
  rw [heq, List.cons_append, skipWs_cons_neg _ hws]

theorem encJsonItems_head (v : DocTree) (vs : TreeList) (d : Nat) :
    ∃ c t, encJsonItems (TreeList.cons v vs) d = c :: t ∧
      jsonWs c = false ∧ c ≠ ']' ∧ c ≠ '}' := by
  obtain ⟨c, t, heq, hws, hb1, hb2⟩ := encJson_head v d
  cases vs with
  | nil => exact ⟨c, t, by simp [encJsonItems, heq], hws, hb1, hb2⟩
  | cons v2 vs2 =>
    exact ⟨c, t ++ ',' :: '\n' :: spaces d ++ encJsonItems (TreeList.cons v2 vs2) d,
      by simp [encJsonItems, heq], hws, hb1, hb2⟩

theorem encJsonFields_head (k : Str) (v : DocTree) (fs : FieldList) (d : Nat) :
    ∃ t, encJsonFields (FieldList.cons k v fs) d = '"' :: t := by
  cases fs with
  | nil =>
    refine ⟨escString k ++ ['"'] ++ ':' :: ' ' :: encJson v d, ?_⟩
    simp [encJsonFields, encStr]
  | cons k2 v2 fs2 =>
    refine ⟨escString k ++ ['"'] ++ ':' :: ' ' ::
      (encJson v d ++ ',' :: '\n' ::
        (spaces d ++ encJsonFields (FieldList.cons k2 v2 fs2) d)), ?_⟩
    simp [encJsonFields, encStr]

theorem parseItemsGo_enc (M d : Nat) (pv : Str → Option (DocTree × Str))
    (hpv : ∀ (v : DocTree) (s rest : Str), sizeT v ≤ M →
      skipWs s = encJson v d ++ rest → headDigit rest = false →
      pv s = some (v, rest)) :
    ∀ (n : Nat) (v : DocTree) (vs : TreeList) (s tail tailR : Str),
      sizeL (TreeList.cons v vs) ≤ M →
      sizeL (TreeList.cons v vs) ≤ n →
      skipWs s = encJsonItems (TreeList.cons v vs) d ++ tail →
      skipWs tail = ']' :: tailR →
      parseItemsGo pv n s = some (TreeList.cons v vs, tailR) := by
  intro n
  induction n with
  | zero =>
    intro v vs s tail tailR _ hn _ _
    exfalso
    have h1 := sizeT_pos v
    simp [sizeL] at hn
    omega
  | succ n ih =>
    intro v vs s tail tailR hM hn hs htail
    cases vs with
    | nil =>
      have hdig : headDigit tail = false := headDigit_of_skipWs htail (by decide)
      have hs1 : skipWs s = encJson v d ++ tail := by
        rw [hs]
        simp [encJsonItems]
      have hvM : sizeT v ≤ M := by
        simp [sizeL] at hM
        omega
      have hpv1 := hpv v s tail hvM hs1 hdig
      rw [parseItemsGo]
      simp only [hpv1, htail]
    | cons v2 vs2 =>
      have hs1 : skipWs s = encJson v d ++
          (',' :: ('\n' :: (spaces d ++
            (encJsonItems (TreeList.cons v2 vs2) d ++ tail)))) := by
        rw [hs]
        simp [encJsonItems]
      have hvM : sizeT v ≤ M := by
        simp [sizeL] at hM
        omega
      have hpv1 := hpv v s _ hvM hs1 (by rw [headDigit]; decide)
      have hr2 : skipWs ('\n' :: (spaces d ++
          (encJsonItems (TreeList.cons v2 vs2) d ++ tail))) =
          encJsonItems (TreeList.cons v2 vs2) d ++ tail := by
        rw [show ('\n' :: (spaces d ++ (encJsonItems (TreeList.cons v2 vs2) d ++ tail))) =
          ('\n' :: spaces d) ++ (encJsonItems (TreeList.cons v2 vs2) d ++ tail) by simp]
        rw [skipWs_ws_append (by
          intro c hc
          rcases List.mem_cons.mp hc with hc | hc
          · rw [hc]; decide
          · exact spaces_all_ws d c hc)]
        exact skipWs_head_neg
          (by
            obtain ⟨c, t, heq, hws, _, _⟩ := encJsonItems_head v2 vs2 d
            exact ⟨c, t, heq, hws⟩) tail
      have hM2 : sizeL (TreeList.cons v2 vs2) ≤ M := by
        simp [sizeL] at hM ⊢
        omega
      have hn2 : sizeL (TreeList.cons v2 vs2) ≤ n := by
        have h1 := sizeT_pos v
        simp [sizeL] at hn ⊢
        omega
      have hrec := ih v2 vs2 _ tail tailR hM2 hn2 hr2 htail
      rw [parseItemsGo]
      simp only [hpv1]
      rw [skipWs_cons_neg _ (by decide)]
      simp only [hrec]

theorem skipWs_space_enc (v : DocTree) (d : Nat) (rest : Str) :
    skipWs (' ' :: (encJson v d ++ rest)) = encJson v d ++ rest := by
  rw [show (' ' :: (encJson v d ++ rest)) = [' '] ++ (encJson v d ++ rest) by simp]
  rw [skipWs_ws_append (by intro c hc; simp at hc; rw [hc]; decide)]
  exact skipWs_enc_append v d rest

theorem parseFieldsGo_enc (M d : Nat) (pv : Str → Option (DocTree × Str))
    (hpv : ∀ (v : DocTree) (s rest : Str), sizeT v ≤ M →
      skipWs s = encJson v d ++ rest → headDigit rest = false →
      pv s = some (v, rest)) :
    ∀ (n : Nat) (k : Str) (v : DocTree) (fs : FieldList) (s tail tailR : Str),
      sizeF (FieldList.cons k v fs) ≤ M →
      sizeF (FieldList.cons k v fs) ≤ n →
      skipWs s = encJsonFields (FieldList.cons k v fs) d ++ tail →
      skipWs tail = '}' :: tailR →
      parseFieldsGo pv n s = some (FieldList.cons k v fs, tailR) := by
  intro n
  induction n with
  | zero =>
    intro k v fs s tail tailR _ hn _ _
    exfalso
    have h1 := sizeT_pos v
    simp [sizeF] at hn
    omega
  | succ n ih =>
    intro k v fs s tail tailR hM hn hs htail
    have hvM : sizeT v ≤ M := by
      simp [sizeF] at hM
      omega
    cases fs with
    | nil =>
      have hs1 : skipWs s =
          '"' :: (escString k ++ ('"' :: (':' :: (' ' :: (encJson v d ++ tail))))) := by
        rw [hs]
        simp [encJsonFields, encStr]
      have hdig : headDigit tail = false := headDigit_of_skipWs htail (by decide)
      have hpv1 : pv (' ' :: (encJson v d ++ tail)) = some (v, tail) :=
        hpv v _ tail hvM (skipWs_space_enc v d tail) hdig
      rw [parseFieldsGo]
      simp only [hs1, parseStrBody_escape]
      rw [skipWs_cons_neg _ (by decide)]
      simp only [hpv1, htail]
    | cons k2 v2 fs2 =>
      have hs1 : skipWs s =
          '"' :: (escString k ++ ('"' :: (':' :: (' ' ::
            (encJson v d ++ (',' :: ('\n' :: (spaces d ++
              (encJsonFields (FieldList.cons k2 v2 fs2) d ++ tail))))))))) := by
        rw [hs]
        simp [encJsonFields, encStr]
      have hpv1 : pv (' ' :: (encJson v d ++ (',' :: ('\n' :: (spaces d ++
          (encJsonFields (FieldList.cons k2 v2 fs2) d ++ tail)))))) =
          some (v, ',' :: ('\n' :: (spaces d ++
            (encJsonFields (FieldList.cons k2 v2 fs2) d ++ tail)))) :=
        hpv v _ _ hvM (skipWs_space_enc v d _) (by rw [headDigit]; decide)
      have hr2 : skipWs ('\n' :: (spaces d ++
          (encJsonFields (FieldList.cons k2 v2 fs2) d ++ tail))) =
          encJsonFields (FieldList.cons k2 v2 fs2) d ++ tail := by
        rw [show ('\n' :: (spaces d ++
            (encJsonFields (FieldList.cons k2 v2 fs2) d ++ tail))) =
          ('\n' :: spaces d) ++
            (encJsonFields (FieldList.cons k2 v2 fs2) d ++ tail) by simp]
        rw [skipWs_ws_append (by
          intro c hc
          rcases List.mem_cons.mp hc with hc | hc
          · rw [hc]; decide
          · exact spaces_all_ws d c hc)]
        refine skipWs_head_neg ?_ tail
        obtain ⟨t, heq⟩ := encJsonFields_head k2 v2 fs2 d
        exact ⟨'"', t, heq, by decide⟩
      have hM2 : sizeF (FieldList.cons k2 v2 fs2) ≤ M := by
        simp [sizeF] at hM ⊢
        omega
      have hn2 : sizeF (FieldList.cons k2 v2 fs2) ≤ n := by
        have h1 := sizeT_pos v
        simp [sizeF] at hn ⊢
        omega
      have hrec := ih k2 v2 fs2 _ tail tailR hM2 hn2 hr2 htail
      rw [parseFieldsGo]
      simp only [hs1, parseStrBody_escape]
      rw [skipWs_cons_neg _ (by decide)]
      simp only [hpv1]
      rw [skipWs_cons_neg _ (by decide)]
      simp only [hrec]

theorem hexDigit_not_keyword : ∀ k : Nat, k < 10 →
    hexDigit k ≠ '"' ∧ hexDigit k ≠ 't' ∧ hexDigit k ≠ 'f' ∧ hexDigit k ≠ 'n' ∧
    hexDigit k ≠ '[' ∧ hexDigit k ≠ '{' ∧ hexDigit k ≠ '-' := by decide

theorem parseVal_encJson :
    ∀ (fuel : Nat) (v : DocTree) (d : Nat) (s rest : Str),
      sizeT v ≤ fuel →
      skipWs s = encJson v d ++ rest →
      headDigit rest = false →
      parseVal fuel s = some (v, rest) := by
  intro fuel
  induction fuel with
  | zero =>
    intro v d s rest hsz _ _
    exact absurd hsz (by have := sizeT_pos v; omega)
  | succ fuel ih =>
    intro v d s rest hsz hs hrest
    cases v with
    | str s0 =>
      have hs1 : skipWs s = '"' :: (escString s0 ++ ('"' :: rest)) := by
        rw [hs, encJson]
        simp [encStr]
      rw [parseVal]
      simp only [hs1]
      simp [parseStrBody_escape]
    | num n =>
      by_cases hneg : n < 0
      · have hs1 : skipWs s = '-' :: (natDec n.natAbs ++ rest) := by
          rw [hs, encJson, intDec, if_pos hneg]
          rfl
        rw [parseVal]
        simp only [hs1]
        rw [if_pos trivial, parseNat_natDec n.natAbs rest hrest]
        simp
        rw [abs_of_neg hneg, neg_neg]
      · obtain ⟨k, t, hk, hnat⟩ := natDec_head_digit n.natAbs
        have hs1 : skipWs s = hexDigit k :: (t ++ rest) := by
          rw [hs, encJson, intDec, if_neg hneg, hnat]
          rfl
        have hfacts := hexDigit_not_keyword k hk
        rw [parseVal]
        simp only [hs1]
        rw [if_neg hfacts.1, if_neg hfacts.2.1, if_neg hfacts.2.2.1,
          if_neg hfacts.2.2.2.1, if_neg hfacts.2.2.2.2.1, if_neg hfacts.2.2.2.2.2.1,
          if_neg hfacts.2.2.2.2.2.2, if_pos (isDigit_hexDigit k hk),
          show (hexDigit k :: (t ++ rest)) = natDec n.natAbs ++ rest by rw [hnat]; rfl,
          parseNat_natDec n.natAbs rest hrest]
        have hval : ((n.natAbs : Int)) = n := by omega
        simp [hval]
    | bool b =>
      cases b with
      | true =>
        have hs1 : skipWs s = 't' :: ("rue".toList ++ rest) := by
          rw [hs, encJson]
          rfl
        rw [parseVal]
        simp only [hs1]
        rw [if_pos (List.isPrefixOf_iff_prefix.mpr (List.prefix_append _ _)),
          show (3 : Nat) = ("rue".toList).length from rfl, List.drop_left]
        simp
      | false =>
        have hs1 : skipWs s = 'f' :: ("alse".toList ++ rest) := by
          rw [hs, encJson]
          rfl
        rw [parseVal]
        simp only [hs1]
        rw [if_pos (List.isPrefixOf_iff_prefix.mpr (List.prefix_append _ _)),
          show (4 : Nat) = ("alse".toList).length from rfl, List.drop_left]
        simp
    | null =>
      have hs1 : skipWs s = 'n' :: ("ull".toList ++ rest) := by
        rw [hs, encJson]
        rfl
      rw [parseVal]
      simp only [hs1]
      rw [if_pos (List.isPrefixOf_iff_prefix.mpr (List.prefix_append _ _)),
        show (3 : Nat) = ("ull".toList).length from rfl, List.drop_left]
      simp
    | arr vs =>
      cases vs with
      | nil =>
        have hs1 : skipWs s = '[' :: (']' :: rest) := by
          rw [hs, encJson]
          rfl
        rw [parseVal]
        simp only [hs1]
        rw [if_pos trivial, skipWs_cons_neg rest (by decide)]
        simp
      | cons v vs2 =>
        have hs1 : skipWs s = '[' :: ('\n' :: (spaces (d + 2) ++
            (encJsonItems (TreeList.cons v vs2) (d + 2) ++
              ('\n' :: (spaces d ++ (']' :: rest)))))) := by
          rw [hs, encJson]
          simp
        obtain ⟨c0, t0, hitems, hws0, hbr1, _⟩ := encJsonItems_head v vs2 (d + 2)
        have hr : skipWs ('\n' :: (spaces (d + 2) ++
            (encJsonItems (TreeList.cons v vs2) (d + 2) ++
              ('\n' :: (spaces d ++ (']' :: rest)))))) =
            encJsonItems (TreeList.cons v vs2) (d + 2) ++
              ('\n' :: (spaces d ++ (']' :: rest))) := by
          rw [show ('\n' :: (spaces (d + 2) ++
              (encJsonItems (TreeList.cons v vs2) (d + 2) ++
                ('\n' :: (spaces d ++ (']' :: rest)))))) =
            ('\n' :: spaces (d + 2)) ++
              (encJsonItems (TreeList.cons v vs2) (d + 2) ++
                ('\n' :: (spaces d ++ (']' :: rest)))) by simp]
          rw [skipWs_ws_append (by
            intro c hc
            rcases List.mem_cons.mp hc with hc | hc
            · rw [hc]; decide
            · exact spaces_all_ws _ c hc)]
          exact skipWs_head_neg ⟨c0, t0, hitems, hws0⟩ _
        have htail : skipWs ('\n' :: (spaces d ++ (']' :: rest))) = ']' :: rest := by
          rw [show ('\n' :: (spaces d ++ (']' :: rest))) =
            ('\n' :: spaces d) ++ (']' :: rest) by simp]
          rw [skipWs_ws_append (by
            intro c hc
            rcases List.mem_cons.mp hc with hc | hc
            · rw [hc]; decide
            · exact spaces_all_ws _ c hc)]
          exact skipWs_cons_neg rest (by decide)
        have hszL : sizeL (TreeList.cons v vs2) ≤ fuel := by
          simp [sizeT] at hsz
          omega
        have hrec := parseItemsGo_enc fuel (d + 2) (parseVal fuel)
          (fun v' s' rest' h1 h2 h3 => ih v' (d + 2) s' rest' h1 h2 h3)
          (fuel + 1) v vs2 _ _ rest hszL (by omega) hr htail
        have hX : skipWs ('\n' :: (spaces (d + 2) ++
            (encJsonItems (TreeList.cons v vs2) (d + 2) ++
              ('\n' :: (spaces d ++ (']' :: rest)))))) =
            c0 :: (t0 ++ ('\n' :: (spaces d ++ (']' :: rest)))) := by
          rw [hr, hitems, List.cons_append]
        rw [parseVal]
        simp only [hs1, hX]
        simp [hbr1, hrec]
    | obj fs =>
      cases fs with
      | nil =>
        have hs1 : skipWs s = '{' :: ('}' :: rest) := by
          rw [hs, encJson]
          rfl
        rw [parseVal]
        simp only [hs1]
        rw [if_pos trivial, skipWs_cons_neg rest (by decide)]
        simp
      | cons k v fs2 =>
        have hs1 : skipWs s = '{' :: ('\n' :: (spaces (d + 2) ++
            (encJsonFields (FieldList.cons k v fs2) (d + 2) ++
              ('\n' :: (spaces d ++ ('}' :: rest)))))) := by
          rw [hs, encJson]
          simp
        obtain ⟨t0, hflds⟩ := encJsonFields_head k v fs2 (d + 2)
        have hr : skipWs ('\n' :: (spaces (d + 2) ++
            (encJsonFields (FieldList.cons k v fs2) (d + 2) ++
              ('\n' :: (spaces d ++ ('}' :: rest)))))) =
            encJsonFields (FieldList.cons k v fs2) (d + 2) ++
              ('\n' :: (spaces d ++ ('}' :: rest))) := by
          rw [show ('\n' :: (spaces (d + 2) ++
              (encJsonFields (FieldList.cons k v fs2) (d + 2) ++
                ('\n' :: (spaces d ++ ('}' :: rest)))))) =
            ('\n' :: spaces (d + 2)) ++
              (encJsonFields (FieldList.cons k v fs2) (d + 2) ++
                ('\n' :: (spaces d ++ ('}' :: rest)))) by simp]
          rw [skipWs_ws_append (by
            intro c hc
            rcases List.mem_cons.mp hc with hc | hc
            · rw [hc]; decide
            · exact spaces_all_ws _ c hc)]
          exact skipWs_head_neg ⟨'"', t0, hflds, by decide⟩ _
        have htail : skipWs ('\n' :: (spaces d ++ ('}' :: rest))) = '}' :: rest := by
          rw [show ('\n' :: (spaces d ++ ('}' :: rest))) =
            ('\n' :: spaces d) ++ ('}' :: rest) by simp]
          rw [skipWs_ws_append (by
            intro c hc
            rcases List.mem_cons.mp hc with hc | hc
            · rw [hc]; decide
            · exact spaces_all_ws _ c hc)]
          exact skipWs_cons_neg rest (by decide)
        have hszF : sizeF (FieldList.cons k v fs2) ≤ fuel := by
          simp [sizeT] at hsz
          omega
        have hrec := parseFieldsGo_enc fuel (d + 2) (parseVal fuel)
          (fun v' s' rest' h1 h2 h3 => ih v' (d + 2) s' rest' h1 h2 h3)
          (fuel + 1) k v fs2 _ _ rest hszF (by omega) hr htail
        have hX : skipWs ('\n' :: (spaces (d + 2) ++
            (encJsonFields (FieldList.cons k v fs2) (d + 2) ++
              ('\n' :: (spaces d ++ ('}' :: rest)))))) =
            '"' :: (t0 ++ ('\n' :: (spaces d ++ ('}' :: rest)))) := by
          rw [hr, hflds, List.cons_append]
        rw [parseVal]
        simp only [hs1, hX]
        simp [hrec]

mutual
theorem sizeT_le_encLen : (v : DocTree) → (d : Nat) → sizeT v ≤ (encJson v d).length
  | DocTree.str s, d => by
    rw [encJson]
    simp [sizeT, encStr]
  | DocTree.num n, d => by
    rw [encJson]
    simp only [sizeT, intDec]
    split
    · simp
    · exact List.length_pos.mpr (natDec_ne_nil n.natAbs)
  | DocTree.bool true, d => by
    rw [encJson]
    decide
  | DocTree.bool false, d => by
    rw [encJson]
    decide
  | DocTree.null, d => by
    rw [encJson]
    decide
  | DocTree.arr TreeList.nil, d => by
    rw [encJson]
    decide
  | DocTree.arr (TreeList.cons v vs), d => by
    have h := sizeL_le_encLen (TreeList.cons v vs) (d + 2)
    rw [encJson]
    simp only [sizeT, List.length_cons, List.length_append]
    omega
  | DocTree.obj FieldList.nil, d => by
    rw [encJson]
    decide
  | DocTree.obj (FieldList.cons k v fs), d => by
    have h := sizeF_le_encLen (FieldList.cons k v fs) (d + 2)
    rw [encJson]
    simp only [sizeT, List.length_cons, List.length_append]
    omega
theorem sizeL_le_encLen : (vs : TreeList) → (d : Nat) → sizeL vs ≤ (encJsonItems vs d).length
  | TreeList.nil, d => by
    rw [encJsonItems]
    simp [sizeL]
  | TreeList.cons v TreeList.nil, d => by
    have h := sizeT_le_encLen v d
    rw [encJsonItems]
    simp only [sizeL]
    omega
  | TreeList.cons v (TreeList.cons v2 vs2), d => by
    have h1 := sizeT_le_encLen v d
    have h2 := sizeL_le_encLen (TreeList.cons v2 vs2) d
    rw [encJsonItems]
    simp only [sizeL, List.length_append, List.length_cons] at h2 ⊢
    omega
    simp
theorem sizeF_le_encLen : (fs : FieldList) → (d : Nat) → sizeF fs ≤ (encJsonFields fs d).length
  | FieldList.nil, d => by
    rw [encJsonFields]
    simp [sizeF]
  | FieldList.cons k v FieldList.nil, d => by
    have h := sizeT_le_encLen v d
    rw [encJsonFields]
    simp only [sizeF, List.length_append, List.length_cons]
    omega
  | FieldList.cons k v (FieldList.cons k2 v2 fs2), d => by
    have h1 := sizeT_le_encLen v d
    have h2 := sizeF_le_encLen (FieldList.cons k2 v2 fs2) d
    rw [encJsonFields]
    simp only [sizeF, List.length_append, List.length_cons] at h2 ⊢
    omega
    simp
end

theorem decodeJson_encodeJson (v : DocTree) : decodeJson (encodeJson v) = some v := by
  unfold decodeJson encodeJson
  have h0 := skipWs_enc_append v 0 []
  rw [List.append_nil] at h0
  have hp := parseVal_encJson ((encJson v 0).length + 1) v 0 (encJson v 0) []
    (Nat.le_trans (sizeT_le_encLen v 0) (by omega))
    (by rw [List.append_nil]; exact h0) rfl
  rw [hp]
  simp [skipWs]

theorem pySplitChar_no_sep (sep : Char) :
    ∀ a : Str, (∀ c ∈ a, c ≠ sep) → pySplitChar sep a = [a] := by
  intro a
  induction a with
  | nil =>
    intro _
    simp [pySplitChar, splitGo]
  | cons c cs ih =>
    intro h
    have hc : c ≠ sep := h c (List.mem_cons_self c cs)
    have ih2 := ih (fun d hd => h d (List.mem_cons_of_mem c hd))
    unfold pySplitChar at ih2 ⊢
    rw [splitGo, if_neg (by simp [List.isPrefixOf]; exact Ne.symm hc), ih2]

theorem pySplitChar_sep_append (sep : Char) :
    ∀ a b : Str, (∀ c ∈ a, c ≠ sep) →
      pySplitChar sep (a ++ sep :: b) = a :: pySplitChar sep b := by
  intro a
  induction a with
  | nil =>
    intro b _
    unfold pySplitChar
    rw [List.nil_append, splitGo, if_pos (by simp [List.isPrefixOf])]
    simp
  | cons c cs ih =>
    intro b h
    have hc : c ≠ sep := h c (List.mem_cons_self c cs)
    have ih2 := ih b (fun d hd => h d (List.mem_cons_of_mem c hd))
    unfold pySplitChar at ih2 ⊢
    rw [List.cons_append, splitGo,
      if_neg (by simp [List.isPrefixOf]; exact Ne.symm hc), ih2]

theorem toYLine_spaces (i : Nat) (c : Str)
    (hc : ∀ d t, c = d :: t → d ≠ ' ') :
    toYLine (spaces i ++ c) = (i, c) := by
  obtain ⟨ht, hd⟩ := @takeWhile_all_append (fun d => d == ' ') (spaces i) c
    (fun d hdm => by
      have hds : d = ' ' := List.eq_of_mem_replicate (by simpa [spaces] using hdm)
      simp [hds])
    (fun d t hdt => by simpa using hc d t hdt)
  unfold toYLine countSpaces
  rw [ht, hd]
  simp [spaces]

theorem splitYLines_render : ∀ L : List YLine,
    L ≠ [] → (∀ l ∈ L, goodLine l) → splitYLines (renderLines L) = L := by
  intro L
  induction L with
  | nil => intro h; exact absurd rfl h
  | cons l L2 ih =>
    intro _ hg
    obtain ⟨i, c⟩ := l
    obtain ⟨hnl, hsp⟩ := hg _ (List.mem_cons_self _ _)
    have hnosep : ∀ d ∈ spaces i ++ c, d ≠ '\n' := by
      intro d hd
      rcases List.mem_append.mp hd with hd | hd
      · have hds : d = ' ' := List.eq_of_mem_replicate (by simpa [spaces] using hd)
        rw [hds]
        decide
      · exact hnl d hd
    cases L2 with
    | nil =>
      rw [show renderLines [(i, c)] = spaces i ++ c from rfl]
      unfold splitYLines
      rw [pySplitChar_no_sep '\n' _ hnosep]
      simp [toYLine_spaces i c hsp]
    | cons l2 L3 =>
      have hr : renderLines ((i, c) :: l2 :: L3) =
          (spaces i ++ c) ++ '\n' :: renderLines (l2 :: L3) := by
        rw [renderLines]
      unfold splitYLines at ih ⊢
      rw [hr, pySplitChar_sep_append '\n' _ _ hnosep, List.map_cons,
        toYLine_spaces i c hsp,
        ih (by simp) (fun l hl => hg l (List.mem_cons_of_mem _ hl))]

theorem hexChars_ne_nl : ∀ c ∈ hexChars, c ≠ '\n' := by decide

theorem hexDigit_mem (k : Nat) : hexDigit k ∈ hexChars := by
  unfold hexDigit
  by_cases h : k < hexChars.length
  · rw [List.getD_eq_getElem _ _ h]
    exact List.getElem_mem h
  · rw [List.getD_eq_default _ _ (Nat.le_of_not_lt h)]
    decide

theorem escChar_no_nl (c : Char) : ∀ d ∈ escChar c, d ≠ '\n' := by
  intro d hd
  unfold escChar at hd
  split_ifs at hd with h1 h2 h3 h4 h5 h6
  · simp only [List.mem_cons, List.not_mem_nil, or_false] at hd
    rcases hd with rfl | rfl <;> decide
  · simp only [List.mem_cons, List.not_mem_nil, or_false] at hd
    rcases hd with rfl | rfl <;> decide
  · simp only [List.mem_cons, List.not_mem_nil, or_false] at hd
    rcases hd with rfl | rfl <;> decide
  · simp only [List.mem_cons, List.not_mem_nil, or_false] at hd
    rcases hd with rfl | rfl <;> decide
  · simp only [List.mem_cons, List.not_mem_nil, or_false] at hd
    rcases hd with rfl | rfl <;> decide
  · simp only [List.mem_cons, List.not_mem_nil, or_false] at hd
    rcases hd with rfl | rfl | rfl | rfl | rfl | rfl
    · decide
    · decide
    · decide
    · decide
    · exact hexChars_ne_nl _ (hexDigit_mem _)
    · exact hexChars_ne_nl _ (hexDigit_mem _)
  · simp only [List.mem_cons, List.not_mem_nil, or_false] at hd
    subst hd
    intro hceq
    rw [hceq] at h6
    exact h6 (by decide)

theorem escString_no_nl (s : Str) : ∀ d ∈ escString s, d ≠ '\n' := by
  intro d hd
  unfold escString at hd
  obtain ⟨a, ha, hda⟩ := List.mem_flatten.mp hd
  obtain ⟨c, _, hca⟩ := List.mem_map.mp ha
  exact escChar_no_nl c d (hca ▸ hda)

theorem encStr_no_nl (s : Str) : ∀ d ∈ encStr s, d ≠ '\n' := by
  intro d hd
  unfold encStr at hd
  rcases List.mem_cons.mp hd with rfl | hd
  · decide
  · rcases List.mem_append.mp hd with hd | hd
    · exact escString_no_nl s d hd
    · simp at hd
      subst hd
      decide

theorem digit_ne (c : Char) (h : isDigitChar c = true) :
    c ≠ '\n' ∧ c ≠ ' ' ∧ c ≠ 't' ∧ c ≠ 'f' ∧ c ≠ 'n' ∧ c ≠ '[' ∧
      c ≠ '{' ∧ c ≠ '"' ∧ c ≠ '-' := by
  simp [isDigitChar] at h
  obtain ⟨h1, h2⟩ := h
  refine ⟨?_, ?_, ?_, ?_, ?_, ?_, ?_, ?_, ?_⟩ <;>
    (rintro rfl; revert h1 h2; decide)

theorem natDec_no_nl (n : Nat) : ∀ d ∈ natDec n, d ≠ '\n' :=
  fun d hd => (digit_ne d (natDec_all_digits n d hd)).1

theorem intDec_no_nl (n : Int) : ∀ d ∈ intDec n, d ≠ '\n' := by
  intro d hd
  unfold intDec at hd
  split_ifs at hd
  · rcases List.mem_cons.mp hd with rfl | hd
    · decide
    · exact natDec_no_nl _ d hd
  · exact natDec_no_nl _ d hd

theorem inlineTok_no_nl (v : DocTree) : ∀ d ∈ inlineTok v, d ≠ '\n' := by
  intro d hd
  cases v with
  | str s => exact encStr_no_nl s d (by simpa [inlineTok] using hd)
  | num n => exact intDec_no_nl n d (by simpa [inlineTok] using hd)
  | bool b =>
    cases b
    · exact (by decide : ∀ d ∈ ("false".toList : Str), d ≠ '\n') d
        (by simpa [inlineTok] using hd)
    · exact (by decide : ∀ d ∈ ("true".toList : Str), d ≠ '\n') d
        (by simpa [inlineTok] using hd)
  | null =>
    exact (by decide : ∀ d ∈ ("null".toList : Str), d ≠ '\n') d
      (by simpa [inlineTok] using hd)
  | arr vs =>
    exact (by decide : ∀ d ∈ ("[]".toList : Str), d ≠ '\n') d
      (by simpa [inlineTok] using hd)
  | obj fs =>
    exact (by decide : ∀ d ∈ ("{}".toList : Str), d ≠ '\n') d
      (by simpa [inlineTok] using hd)

theorem inlineTok_head (v : DocTree) : ∀ d t, inlineTok v = d :: t → d ≠ ' ' := by
  intro d t hdt
  cases v with
  | str s =>
    rw [show inlineTok (DocTree.str s) = '"' :: (escString s ++ ['"']) from rfl] at hdt
    injection hdt with h1 _
    rw [← h1]
    decide
  | num n =>
    rw [show inlineTok (DocTree.num n) = intDec n from rfl, intDec] at hdt
    split_ifs at hdt
    · injection hdt with h1 _
      rw [← h1]
      decide
    · obtain ⟨k, t2, hk, heq⟩ := natDec_head_digit n.natAbs
      rw [heq] at hdt
      injection hdt with h1 _
      rw [← h1]
      exact (digit_ne _ (isDigit_hexDigit k hk)).2.1
  | bool b =>
    cases b <;>
      (rw [inlineTok] at hdt; injection hdt with h1 _; rw [← h1]; decide)
  | null =>
    rw [inlineTok] at hdt
    injection hdt with h1 _
    rw [← h1]
    decide
  | arr vs =>
    rw [inlineTok] at hdt
    injection hdt with h1 _
    rw [← h1]
    decide
  | obj fs =>
    rw [inlineTok] at hdt
    injection hdt with h1 _
    rw [← h1]
    decide

theorem parseNat_natDec_nil (n : Nat) : parseNat (natDec n) = some (n, []) := by
  have hp := parseNat_natDec n [] rfl
  rwa [List.append_nil] at hp

theorem parseInlineY_tok (v : DocTree) (h : isInline v = true) :
    parseInlineY (inlineTok v) = some v := by
  cases v with
  | str s =>
    rw [show inlineTok (DocTree.str s) = '"' :: (escString s ++ ['"']) from rfl]
    unfold parseInlineY
    rw [if_neg (by simp), if_neg (by simp), if_neg (by simp), if_neg (by simp),
      if_neg (by simp)]
    simp [parseStrBody_escape s []]
  | num n =>
    rw [show inlineTok (DocTree.num n) = intDec n from rfl, intDec]
    split_ifs with hn
    · unfold parseInlineY
      rw [if_neg (by simp), if_neg (by simp), if_neg (by simp), if_neg (by simp),
        if_neg (by simp)]
      simp [parseNat_natDec_nil n.natAbs]
      rw [abs_of_neg hn, neg_neg]
    · obtain ⟨k, t2, hk, heq⟩ := natDec_head_digit n.natAbs
      obtain ⟨d1, d2, d3, d4, d5, d6, d7, d8, d9⟩ :=
        digit_ne _ (isDigit_hexDigit k hk)
      rw [heq]
      unfold parseInlineY
      rw [if_neg (by simp [d3]), if_neg (by simp [d4]), if_neg (by simp [d5]),
        if_neg (by simp [d6]), if_neg (by simp [d7])]
      have hpn : parseNat (hexDigit k :: t2) = some (n.natAbs, []) := by
        rw [← heq]
        exact parseNat_natDec_nil n.natAbs
      simp [d8, d9, isDigit_hexDigit k hk, hpn]
      omega
  | bool b => cases b <;> decide
  | null => decide
  | arr vs =>
    cases vs with
    | nil => decide
    | cons a b => simp [isInline] at h
  | obj fs =>
    cases fs with
    | nil => decide
    | cons k a b => simp [isInline] at h

theorem sizeT_inline (v : DocTree) (h : isInline v = true) : sizeT v = 1 := by
  cases v with
  | str s => simp [sizeT]
  | num n => simp [sizeT]
  | bool b => simp [sizeT]
  | null => simp [sizeT]
  | arr vs =>
    cases vs with
    | nil => simp [sizeT, sizeL]
    | cons a b => simp [isInline] at h
  | obj fs =>
    cases fs with
    | nil => simp [sizeT, sizeF]
    | cons k a b => simp [isInline] at h

theorem goodLine_tok (i : Nat) (v : DocTree) : goodLine (i, inlineTok v) :=
  ⟨inlineTok_no_nl v, inlineTok_head v⟩

mutual
theorem encYaml_good : (v : DocTree) → (i : Nat) → ∀ l ∈ encYaml v i, goodLine l
  | DocTree.arr (TreeList.cons v vs), i => by
    rw [encYaml]
    exact encYamlItems_good (TreeList.cons v vs) i
  | DocTree.obj (FieldList.cons k v fs), i => by
    rw [encYaml]
    exact encYamlFields_good (FieldList.cons k v fs) i
  | DocTree.str s, i => by
    intro l hl
    rw [encYaml] at hl
    simp only [List.mem_cons, List.not_mem_nil, or_false] at hl
    subst hl
    exact goodLine_tok i (DocTree.str s)
  | DocTree.num n, i => by
    intro l hl
    rw [encYaml] at hl
    simp only [List.mem_cons, List.not_mem_nil, or_false] at hl
    subst hl
    exact goodLine_tok i (DocTree.num n)
  | DocTree.bool true, i => by
    intro l hl
    rw [encYaml] at hl
    simp only [List.mem_cons, List.not_mem_nil, or_false] at hl
    subst hl
    exact goodLine_tok i (DocTree.bool true)
  | DocTree.bool false, i => by
    intro l hl
    rw [encYaml] at hl
    simp only [List.mem_cons, List.not_mem_nil, or_false] at hl
    subst hl
    exact goodLine_tok i (DocTree.bool false)
  | DocTree.null, i => by
    intro l hl
    rw [encYaml] at hl
    simp only [List.mem_cons, List.not_mem_nil, or_false] at hl
    subst hl
    exact goodLine_tok i DocTree.null
  | DocTree.arr TreeList.nil, i => by
    intro l hl
    rw [encYaml] at hl
    simp only [List.mem_cons, List.not_mem_nil, or_false] at hl
    subst hl
    exact goodLine_tok i (DocTree.arr TreeList.nil)
  | DocTree.obj FieldList.nil, i => by
    intro l hl
    rw [encYaml] at hl
    simp only [List.mem_cons, List.not_mem_nil, or_false] at hl
    subst hl
    exact goodLine_tok i (DocTree.obj FieldList.nil)
theorem encYamlItems_good :
    (vs : TreeList) → (i : Nat) → ∀ l ∈ encYamlItems vs i, goodLine l
  | TreeList.nil, i => by
    intro l hl
    rw [encYamlItems] at hl
    simp at hl
  | TreeList.cons v vs, i => by
    intro l hl
    rw [encYamlItems] at hl
    rcases List.mem_append.mp hl with hl | hl
    · by_cases hv : isInline v
      · rw [if_pos hv] at hl
        simp only [List.mem_cons, List.not_mem_nil, or_false] at hl
        subst hl
        refine ⟨fun d hd => ?_, fun d t hdt => ?_⟩
        · rcases List.mem_cons.mp hd with rfl | hd
          · decide
          · rcases List.mem_cons.mp hd with rfl | hd
            · decide
            · exact inlineTok_no_nl v d hd
        · injection hdt with h1 _
          rw [← h1]
          decide
      · rw [if_neg hv] at hl
        rcases List.mem_cons.mp hl with rfl | hl
        · refine ⟨fun d hd => ?_, fun d t hdt => ?_⟩
          · simp only [List.mem_cons, List.not_mem_nil, or_false] at hd
            subst hd
            decide
          · injection hdt with h1 _
            rw [← h1]
            decide
        · exact encYaml_good v (i + 2) l hl
    · exact encYamlItems_good vs i l hl
theorem encYamlFields_good :
    (fs : FieldList) → (i : Nat) → ∀ l ∈ encYamlFields fs i, goodLine l
  | FieldList.nil, i => by
    intro l hl
    rw [encYamlFields] at hl
    simp at hl
  | FieldList.cons k v fs, i => by
    intro l hl
    rw [encYamlFields] at hl
    rcases List.mem_append.mp hl with hl | hl
    · by_cases hv : isInline v
      · rw [if_pos hv] at hl
        simp only [List.mem_cons, List.not_mem_nil, or_false] at hl
        subst hl
        refine ⟨fun d hd => ?_, fun d t hdt => ?_⟩
        · rcases List.mem_append.mp hd with hd | hd
          · exact encStr_no_nl k d hd
          · rcases List.mem_cons.mp hd with rfl | hd
            · decide
            · rcases List.mem_cons.mp hd with rfl | hd
              · decide
              · exact inlineTok_no_nl v d hd
        · rw [show encStr k ++ ':' :: ' ' :: inlineTok v =
            '"' :: (escString k ++ ['"'] ++ ':' :: ' ' :: inlineTok v) from by
              simp [encStr]] at hdt
          injection hdt with h1 _
          rw [← h1]
          decide
      · rw [if_neg hv] at hl
        rcases List.mem_cons.mp hl with rfl | hl
        · refine ⟨fun d hd => ?_, fun d t hdt => ?_⟩
          · rcases List.mem_append.mp hd with hd | hd
            · exact encStr_no_nl k d hd
            · simp only [List.mem_cons, List.not_mem_nil, or_false] at hd
              subst hd
              decide
          · rw [show encStr k ++ [':'] = '"' :: (escString k ++ ['"'] ++ [':'])
              from by simp [encStr]] at hdt
            injection hdt with h1 _
            rw [← h1]
            decide
        · exact encYaml_good v (i + 2) l hl
    · exact encYamlFields_good fs i l hl
end

theorem encYaml_ne_nil (v : DocTree) (i : Nat) : encYaml v i ≠ [] := by
  cases v with
  | arr vs =>
    cases vs with
    | nil =>
      rw [encYaml]
      simp
    | cons a b =>
      rw [encYaml, encYamlItems]
      by_cases hv : isInline a <;> simp [hv]
  | obj fs =>
    cases fs with
    | nil =>
      rw [encYaml]
      simp
    | cons k a b =>
      rw [encYaml, encYamlFields]
      by_cases hv : isInline a <;> simp [hv]
  | str s =>
    rw [encYaml]
    simp
  | num n =>
    rw [encYaml]
    simp
  | bool b =>
    cases b <;> (rw [encYaml]; simp)
  | null =>
    rw [encYaml]
    simp

mutual
theorem sizeT_le_yLines : (v : DocTree) → (i : Nat) →
    sizeT v ≤ (encYaml v i).length + 1
  | DocTree.arr (TreeList.cons v vs), i => by
    have h := sizeL_le_yLines (TreeList.cons v vs) i
    rw [encYaml]
    simp only [sizeT]
    omega
  | DocTree.obj (FieldList.cons k v fs), i => by
    have h := sizeF_le_yLines (FieldList.cons k v fs) i
    rw [encYaml]
    simp only [sizeT]
    omega
  | DocTree.str s, i => by
    rw [encYaml]
    simp [sizeT]
  | DocTree.num n, i => by
    rw [encYaml]
    simp [sizeT]
  | DocTree.bool true, i => by
    rw [encYaml]
    simp [sizeT]
  | DocTree.bool false, i => by
    rw [encYaml]
    simp [sizeT]
  | DocTree.null, i => by
    rw [encYaml]
    simp [sizeT]
  | DocTree.arr TreeList.nil, i => by
    rw [encYaml]
    simp [sizeT, sizeL]
  | DocTree.obj FieldList.nil, i => by
    rw [encYaml]
    simp [sizeT, sizeF]
theorem sizeL_le_yLines : (vs : TreeList) → (i : Nat) →
    sizeL vs ≤ (encYamlItems vs i).length
  | TreeList.nil, i => by
    rw [encYamlItems]
    simp [sizeL]
  | TreeList.cons v vs, i => by
    have h2 := sizeL_le_yLines vs i
    rw [encYamlItems]
    by_cases hv : isInline v
    · rw [if_pos hv]
      have h1 : sizeT v = 1 := sizeT_inline v hv
      simp only [sizeL, List.length_append, List.length_cons, List.length_nil]
      omega
    · rw [if_neg hv]
      have h1 := sizeT_le_yLines v (i + 2)
      simp only [sizeL, List.length_append, List.length_cons]
      omega
theorem sizeF_le_yLines : (fs : FieldList) → (i : Nat) →
    sizeF fs ≤ (encYamlFields fs i).length
  | FieldList.nil, i => by
    rw [encYamlFields]
    simp [sizeF]
  | FieldList.cons k v fs, i => by
    have h2 := sizeF_le_yLines fs i
    rw [encYamlFields]
    by_cases hv : isInline v
    · rw [if_pos hv]
      have h1 : sizeT v = 1 := sizeT_inline v hv
      simp only [sizeF, List.length_append, List.length_cons, List.length_nil]
      omega
    · rw [if_neg hv]
      have h1 := sizeT_le_yLines v (i + 2)
      simp only [sizeF, List.length_append, List.length_cons]
      omega
end

theorem encYamlItems_head (v : DocTree) (vs : TreeList) (i : Nat) :
    ∃ x tl, encYamlItems (TreeList.cons v vs) i = (i, '-' :: x) :: tl ∧
      isSeqStart ('-' :: x) = true := by
  rw [encYamlItems]
  by_cases hv : isInline v
  · rw [if_pos hv]
    exact ⟨_, _, rfl, by simp +decide [isSeqStart, List.isPrefixOf]⟩
  · rw [if_neg hv]
    exact ⟨_, _, rfl, by simp [isSeqStart]⟩

theorem encYamlFields_head (k : Str) (v : DocTree) (fs : FieldList) (i : Nat) :
    ∃ x tl, encYamlFields (FieldList.cons k v fs) i = (i, '"' :: x) :: tl := by
  rw [encYamlFields]
  by_cases hv : isInline v
  · rw [if_pos hv]
    exact ⟨_, _, rfl⟩
  · rw [if_neg hv]
    exact ⟨_, _, rfl⟩

theorem moreSeq_false_of_restLower (i : Nat) (rest : List YLine)
    (h : restLower i rest) : moreSeq i rest = false := by
  cases rest with
  | nil => rfl
  | cons l tl =>
    obtain ⟨j, c⟩ := l
    have hj : j < i := h
    simp [moreSeq, Nat.ne_of_lt hj]

theorem moreMap_false_of_restLower (i : Nat) (rest : List YLine)
    (h : restLower i rest) : moreMap i rest = false := by
  cases rest with
  | nil => rfl
  | cons l tl =>
    obtain ⟨j, c⟩ := l
    have hj : j < i := h
    simp [moreMap, Nat.ne_of_lt hj]

theorem moreSeq_items (v : DocTree) (vs : TreeList) (i : Nat)
    (rest : List YLine) :
    moreSeq i (encYamlItems (TreeList.cons v vs) i ++ rest) = true := by
  obtain ⟨x, tl, heq, hss⟩ := encYamlItems_head v vs i
  rw [heq, List.cons_append]
  simp [moreSeq, hss]

theorem moreMap_fields (k : Str) (v : DocTree) (fs : FieldList) (i : Nat)
    (rest : List YLine) :
    moreMap i (encYamlFields (FieldList.cons k v fs) i ++ rest) = true := by
  obtain ⟨x, tl, heq⟩ := encYamlFields_head k v fs i
  rw [heq, List.cons_append]
  simp [moreMap, isMapStart]

theorem restLower_mono {i i2 : Nat} (h : i ≤ i2) (rest : List YLine)
    (hr : restLower i rest) : restLower i2 rest := by
  cases rest with
  | nil => trivial
  | cons l tl =>
    obtain ⟨j, c⟩ := l
    have hj : j < i := hr
    exact Nat.lt_of_lt_of_le hj h

theorem restLower_items (i : Nat) (vs : TreeList) (rest : List YLine)
    (hr : restLower i rest) :
    restLower (i + 2) (encYamlItems vs i ++ rest) := by
  cases vs with
  | nil =>
    rw [encYamlItems, List.nil_append]
    exact restLower_mono (by omega) rest hr
  | cons v vs2 =>
    obtain ⟨x, tl, heq, _⟩ := encYamlItems_head v vs2 i
    rw [heq, List.cons_append]
    show i < i + 2
    omega

theorem restLower_fields (i : Nat) (fs : FieldList) (rest : List YLine)
    (hr : restLower i rest) :
    restLower (i + 2) (encYamlFields fs i ++ rest) := by
  cases fs with
  | nil =>
    rw [encYamlFields, List.nil_append]
    exact restLower_mono (by omega) rest hr
  | cons k v fs2 =>
    obtain ⟨x, tl, heq⟩ := encYamlFields_head k v fs2 i
    rw [heq, List.cons_append]
    show i < i + 2
    omega

theorem parseYSeqGo_enc (M i : Nat)
    (pb : Nat → List YLine → Option (DocTree × List YLine))
    (hpb : ∀ (v : DocTree) (rest : List YLine), sizeT v ≤ M →
      restLower (i + 2) rest →
      pb (i + 2) (encYaml v (i + 2) ++ rest) = some (v, rest)) :
    ∀ (n : Nat) (v : DocTree) (vs : TreeList) (rest : List YLine),
      sizeL (TreeList.cons v vs) ≤ M →
      sizeL (TreeList.cons v vs) ≤ n →
      restLower i rest →
      parseYSeqGo pb n i (encYamlItems (TreeList.cons v vs) i ++ rest) =
        some (TreeList.cons v vs, rest) := by
  intro n
  induction n with
  | zero =>
    intro v vs rest _ hn _
    exfalso
    have h1 := sizeT_pos v
    simp [sizeL] at hn
    omega
  | succ n ih =>
    intro v vs rest hM hn hr
    have hvM : sizeT v ≤ M := by
      simp [sizeL] at hM
      omega
    by_cases hv : isInline v
    · cases vs with
      | nil =>
        have hls : encYamlItems (TreeList.cons v TreeList.nil) i ++ rest =
            (i, '-' :: ' ' :: inlineTok v) :: rest := by
          rw [encYamlItems, if_pos hv, encYamlItems]
          simp
        rw [hls, parseYSeqGo, if_pos rfl]
        simp [parseInlineY_tok v hv, moreSeq_false_of_restLower i rest hr]
      | cons v2 vs2 =>
        have hls : encYamlItems (TreeList.cons v (TreeList.cons v2 vs2)) i ++ rest =
            (i, '-' :: ' ' :: inlineTok v) ::
              (encYamlItems (TreeList.cons v2 vs2) i ++ rest) := by
          rw [encYamlItems, if_pos hv]
          simp
        have hms := moreSeq_items v2 vs2 i rest
        have hM2 : sizeL (TreeList.cons v2 vs2) ≤ M := by
          simp [sizeL] at hM ⊢
          omega
        have hn2 : sizeL (TreeList.cons v2 vs2) ≤ n := by
          have h1 := sizeT_pos v
          simp [sizeL] at hn ⊢
          omega
        have hrec := ih v2 vs2 rest hM2 hn2 hr
        rw [hls, parseYSeqGo, if_pos rfl]
        simp [parseInlineY_tok v hv, hms, hrec]
    · cases vs with
      | nil =>
        have hls : encYamlItems (TreeList.cons v TreeList.nil) i ++ rest =
            (i, ['-']) :: (encYaml v (i + 2) ++ rest) := by
          rw [encYamlItems, if_neg hv, encYamlItems]
          simp
        have hpb1 := hpb v rest hvM (restLower_mono (by omega) rest hr)
        rw [hls, parseYSeqGo, if_pos rfl]
        simp [hpb1, moreSeq_false_of_restLower i rest hr]
      | cons v2 vs2 =>
        have hls : encYamlItems (TreeList.cons v (TreeList.cons v2 vs2)) i ++ rest =
            (i, ['-']) :: (encYaml v (i + 2) ++
              (encYamlItems (TreeList.cons v2 vs2) i ++ rest)) := by
          rw [encYamlItems, if_neg hv]
          simp
        have hrl := restLower_items i (TreeList.cons v2 vs2) rest hr
        have hpb1 := hpb v _ hvM hrl
        have hms := moreSeq_items v2 vs2 i rest
        have hM2 : sizeL (TreeList.cons v2 vs2) ≤ M := by
          simp [sizeL] at hM ⊢
          omega
        have hn2 : sizeL (TreeList.cons v2 vs2) ≤ n := by
          have h1 := sizeT_pos v
          simp [sizeL] at hn ⊢
          omega
        have hrec := ih v2 vs2 rest hM2 hn2 hr
        rw [hls, parseYSeqGo, if_pos rfl]
        simp [hpb1, hms, hrec]

theorem parseYMapGo_enc (M i : Nat)
    (pb : Nat → List YLine → Option (DocTree × List YLine))
    (hpb : ∀ (v : DocTree) (rest : List YLine), sizeT v ≤ M →
      restLower (i + 2) rest →
      pb (i + 2) (encYaml v (i + 2) ++ rest) = some (v, rest)) :
    ∀ (n : Nat) (k : Str) (v : DocTree) (fs : FieldList) (rest : List YLine),
      sizeF (FieldList.cons k v fs) ≤ M →
      sizeF (FieldList.cons k v fs) ≤ n →
      restLower i rest →
      parseYMapGo pb n i (encYamlFields (FieldList.cons k v fs) i ++ rest) =
        some (FieldList.cons k v fs, rest) := by
  intro n
  induction n with
  | zero =>
    intro k v fs rest _ hn _
    exfalso
    have h1 := sizeT_pos v
    simp [sizeF] at hn
    omega
  | succ n ih =>
    intro k v fs rest hM hn hr
    have hvM : sizeT v ≤ M := by
      simp [sizeF] at hM
      omega
    by_cases hv : isInline v
    · cases fs with
      | nil =>
        have hls : encYamlFields (FieldList.cons k v FieldList.nil) i ++ rest =
            (i, '"' :: (escString k ++ '"' :: ':' :: ' ' :: inlineTok v)) ::
              rest := by
          rw [encYamlFields, if_pos hv, encYamlFields]
          simp [encStr]
        rw [hls, parseYMapGo, if_pos rfl]
        simp [parseStrBody_escape k (':' :: ' ' :: inlineTok v),
          parseInlineY_tok v hv, moreMap_false_of_restLower i rest hr]
      | cons k2 v2 fs2 =>
        have hls : encYamlFields (FieldList.cons k v (FieldList.cons k2 v2 fs2)) i
            ++ rest =
            (i, '"' :: (escString k ++ '"' :: ':' :: ' ' :: inlineTok v)) ::
              (encYamlFields (FieldList.cons k2 v2 fs2) i ++ rest) := by
          rw [encYamlFields, if_pos hv]
          simp [encStr]
        have hms := moreMap_fields k2 v2 fs2 i rest
        have hM2 : sizeF (FieldList.cons k2 v2 fs2) ≤ M := by
          simp [sizeF] at hM ⊢
          omega
        have hn2 : sizeF (FieldList.cons k2 v2 fs2) ≤ n := by
          have h1 := sizeT_pos v
          simp [sizeF] at hn ⊢
          omega
        have hrec := ih k2 v2 fs2 rest hM2 hn2 hr
        rw [hls, parseYMapGo, if_pos rfl]
        simp [parseStrBody_escape k (':' :: ' ' :: inlineTok v),
          parseInlineY_tok v hv, hms, hrec]
    · cases fs with
      | nil =>
        have hls : encYamlFields (FieldList.cons k v FieldList.nil) i ++ rest =
            (i, '"' :: (escString k ++ '"' :: [':'])) ::
              (encYaml v (i + 2) ++ rest) := by
          rw [encYamlFields, if_neg hv, encYamlFields]
          simp [encStr]
        have hpb1 := hpb v rest hvM (restLower_mono (by omega) rest hr)
        rw [hls, parseYMapGo, if_pos rfl]
        simp [parseStrBody_escape k [':'], hpb1,
          moreMap_false_of_restLower i rest hr]
      | cons k2 v2 fs2 =>
        have hls : encYamlFields (FieldList.cons k v (FieldList.cons k2 v2 fs2)) i
            ++ rest =
            (i, '"' :: (escString k ++ '"' :: [':'])) ::
              (encYaml v (i + 2) ++
                (encYamlFields (FieldList.cons k2 v2 fs2) i ++ rest)) := by
          rw [encYamlFields, if_neg hv]
          simp [encStr]
        have hrl := restLower_fields i (FieldList.cons k2 v2 fs2) rest hr
        have hpb1 := hpb v _ hvM hrl
        have hms := moreMap_fields k2 v2 fs2 i rest
        have hM2 : sizeF (FieldList.cons k2 v2 fs2) ≤ M := by
          simp [sizeF] at hM ⊢
          omega
        have hn2 : sizeF (FieldList.cons k2 v2 fs2) ≤ n := by
          have h1 := sizeT_pos v
          simp [sizeF] at hn ⊢
          omega
        have hrec := ih k2 v2 fs2 rest hM2 hn2 hr
        rw [hls, parseYMapGo, if_pos rfl]
        simp [parseStrBody_escape k [':'], hpb1, hms, hrec]

theorem intDec_not_seq (n : Int) :
    ∃ c t, intDec n = c :: t ∧ c ≠ '"' ∧ isSeqStart (c :: t) = false := by
  unfold intDec
  split_ifs with hn
  · obtain ⟨k, t2, hk, heq⟩ := natDec_head_digit n.natAbs
    obtain ⟨d1, d2, _⟩ := digit_ne _ (isDigit_hexDigit k hk)
    refine ⟨'-', natDec n.natAbs, rfl, by decide, ?_⟩
    rw [heq]
    simp +decide [isSeqStart, List.isPrefixOf, Ne.symm d2]
  · obtain ⟨k, t2, hk, heq⟩ := natDec_head_digit n.natAbs
    obtain ⟨d1, d2, d3, d4, d5, d6, d7, d8, d9⟩ :=
      digit_ne _ (isDigit_hexDigit k hk)
    refine ⟨hexDigit k, t2, heq, d8, ?_⟩
    simp +decide [isSeqStart, List.isPrefixOf, d9, Ne.symm d9]

theorem encYamlFields_headStr (k : Str) (v : DocTree) (fs : FieldList) (i : Nat) :
    ∃ x tl X, encYamlFields (FieldList.cons k v fs) i = (i, '"' :: x) :: tl ∧
      x = escString k ++ '"' :: ':' :: X := by
  rw [encYamlFields]
  by_cases hv : isInline v
  · rw [if_pos hv]
    exact ⟨escString k ++ '"' :: ':' :: ' ' :: inlineTok v, encYamlFields fs i,
      ' ' :: inlineTok v, by simp [encStr], rfl⟩
  · rw [if_neg hv]
    exact ⟨escString k ++ '"' :: ':' :: [],
      encYaml v (i + 2) ++ encYamlFields fs i, [], by simp [encStr], rfl⟩

theorem parseYBlock_enc : ∀ (fuel : Nat) (v : DocTree) (i : Nat)
    (rest : List YLine), sizeT v ≤ fuel → restLower i rest →
    parseYBlock fuel i (encYaml v i ++ rest) = some (v, rest) := by
  intro fuel
  induction fuel with
  | zero =>
    intro v i rest hs _
    exfalso
    have h1 := sizeT_pos v
    omega
  | succ fuel ih =>
    intro v i rest hs hr
    cases v with
    | str s =>
      have hform : encYaml (DocTree.str s) i ++ rest =
          (i, '"' :: (escString s ++ '"' :: [])) :: rest := by
        rw [encYaml]
        simp [encStr]
      rw [hform, parseYBlock, if_pos rfl,
        if_neg (by simp +decide [isSeqStart, List.isPrefixOf])]
      simp [parseStrBody_escape s []]
    | num n =>
      obtain ⟨c0, t0, heq, h1, hss⟩ := intDec_not_seq n
      have hform : encYaml (DocTree.num n) i ++ rest = (i, c0 :: t0) :: rest := by
        rw [encYaml, heq]
        rfl
      have hpi : parseInlineY (c0 :: t0) = some (DocTree.num n) := by
        rw [← heq]
        exact parseInlineY_tok (DocTree.num n) rfl
      rw [hform, parseYBlock, if_pos rfl, if_neg (by simp [hss])]
      simp [h1, hpi]
    | bool b =>
      cases b with
      | true =>
        have hform : encYaml (DocTree.bool true) i ++ rest =
            (i, 't' :: 'r' :: 'u' :: 'e' :: []) :: rest := by
          rw [encYaml]
          rfl
        rw [hform, parseYBlock, if_pos rfl, if_neg (by decide)]
        simp [show parseInlineY ('t' :: 'r' :: 'u' :: 'e' :: []) =
          some (DocTree.bool true) from by decide]
      | false =>
        have hform : encYaml (DocTree.bool false) i ++ rest =
            (i, 'f' :: 'a' :: 'l' :: 's' :: 'e' :: []) :: rest := by
          rw [encYaml]
          rfl
        rw [hform, parseYBlock, if_pos rfl, if_neg (by decide)]
        simp [show parseInlineY ('f' :: 'a' :: 'l' :: 's' :: 'e' :: []) =
          some (DocTree.bool false) from by decide]
    | null =>
      have hform : encYaml DocTree.null i ++ rest =
          (i, 'n' :: 'u' :: 'l' :: 'l' :: []) :: rest := by
        rw [encYaml]
        rfl
      rw [hform, parseYBlock, if_pos rfl, if_neg (by decide)]
      simp [show parseInlineY ('n' :: 'u' :: 'l' :: 'l' :: []) =
        some DocTree.null from by decide]
    | arr vs =>
      cases vs with
      | nil =>
        have hform : encYaml (DocTree.arr TreeList.nil) i ++ rest =
            (i, '[' :: ']' :: []) :: rest := by
          rw [encYaml]
          rfl
        rw [hform, parseYBlock, if_pos rfl, if_neg (by decide)]
        simp [show parseInlineY ('[' :: ']' :: []) =
          some (DocTree.arr TreeList.nil) from by decide]
      | cons v2 vs2 =>
        obtain ⟨x, tl, heq, hss⟩ := encYamlItems_head v2 vs2 i
        have hform : encYaml (DocTree.arr (TreeList.cons v2 vs2)) i ++ rest =
            (i, '-' :: x) :: (tl ++ rest) := by
          rw [encYaml, heq]
          rfl
        have hM : sizeL (TreeList.cons v2 vs2) ≤ fuel := by
          simp only [sizeT] at hs
          omega
        have hseq := parseYSeqGo_enc fuel i (parseYBlock fuel)
          (fun v3 r3 h1 h2 => ih v3 (i + 2) r3 h1 h2) (fuel + 1) v2 vs2 rest
          hM (by omega) hr
        rw [hform, parseYBlock, if_pos rfl, if_pos hss, ← hform,
          show encYaml (DocTree.arr (TreeList.cons v2 vs2)) i =
            encYamlItems (TreeList.cons v2 vs2) i from by rw [encYaml]]
        simp [hseq]
    | obj fs =>
      cases fs with
      | nil =>
        have hform : encYaml (DocTree.obj FieldList.nil) i ++ rest =
            (i, '{' :: '}' :: []) :: rest := by
          rw [encYaml]
          rfl
        rw [hform, parseYBlock, if_pos rfl, if_neg (by decide)]
        simp [show parseInlineY ('{' :: '}' :: []) =
          some (DocTree.obj FieldList.nil) from by decide]
      | cons k v2 fs2 =>
        obtain ⟨x, tl, X, heq, hx⟩ := encYamlFields_headStr k v2 fs2 i
        have hform : encYaml (DocTree.obj (FieldList.cons k v2 fs2)) i ++ rest =
            (i, '"' :: x) :: (tl ++ rest) := by
          rw [encYaml, heq]
          rfl
        have hps : parseStrBody x = some (k, ':' :: X) := by
          rw [hx]
          exact parseStrBody_escape k (':' :: X)
        have hM : sizeF (FieldList.cons k v2 fs2) ≤ fuel := by
          simp only [sizeT] at hs
          omega
        have hmap := parseYMapGo_enc fuel i (parseYBlock fuel)
          (fun v3 r3 h1 h2 => ih v3 (i + 2) r3 h1 h2) (fuel + 1) k v2 fs2 rest
          hM (by omega) hr
        rw [hform, parseYBlock, if_pos rfl,
          if_neg (by simp +decide [isSeqStart, List.isPrefixOf])]
        simp only [hps]
        rw [← hform,
          show encYaml (DocTree.obj (FieldList.cons k v2 fs2)) i =
            encYamlFields (FieldList.cons k v2 fs2) i from by rw [encYaml]]
        simp [hmap]

theorem decodeYaml_encodeYaml (v : DocTree) : decodeYaml (encodeYaml v) = some v := by
  have hsplit : splitYLines (encodeYaml v) = encYaml v 0 := by
    unfold encodeYaml
    exact splitYLines_render (encYaml v 0) (encYaml_ne_nil v 0) (encYaml_good v 0)
  unfold decodeYaml
  rw [hsplit]
  have hp := parseYBlock_enc ((encYaml v 0).length + 1) v 0 []
    (sizeT_le_yLines v 0) trivial
  rw [List.append_nil] at hp
  rw [hp]

/-- C6: decoding the JSON encoding of any document tree returns a tree
deep-equal to the original, and decoding the YAML encoding likewise: the
transcoding pipeline used by the JSON and YAML endpoints loses no
structure (numbers are modelled as integers throughout, so no numeric
widening arises, and mapping key order is preserved). -/
theorem c6_encode_decode_roundtrip (v : DocTree) :
    decodeJson (encodeJson v) = some v ∧ decodeYaml (encodeYaml v) = some v :=
  ⟨decodeJson_encodeJson v, decodeYaml_encodeYaml v⟩
